import Mathlib

/-!
Verification of the zen recompilation-avoidance tool (zen.py) against its
specification.  The Python source is shallowly embedded: pure functions
become Lean functions, stateful methods become explicit state passing,
exceptions become `Except`/`Option` results, and Python `int`s become `Nat`
(with explicit `% m` where the source reduces modulo a constant).
-/

namespace Zen

/-- Change status of a SourceFile, CompileObject, or Target (zen.py `Status`,
an `IntEnum` with UNCHECKED=1 < NO_CHANGE=2 < MINOR_CHANGE=3 < CHANGED=4). -/
inductive Status where
  | UNCHECKED
  | NO_CHANGE
  | MINOR_CHANGE
  | CHANGED
deriving DecidableEq, Repr, Fintype

/-- Integer value of a `Status` member (the `IntEnum` value used by `max`). -/
def statusVal : Status → Nat
  | .UNCHECKED => 1
  | .NO_CHANGE => 2
  | .MINOR_CHANGE => 3
  | .CHANGED => 4

/-- Python `max` on two statuses: compares the `IntEnum` values. -/
def statusMax (a b : Status) : Status :=
  if statusVal a < statusVal b then b else a

/-- Python `max(seq)` for a non-empty status sequence; the code guards the
empty case and substitutes NO_CHANGE (`Target.meditate`). -/
def maxStatusOr : List Status → Status
  | [] => .NO_CHANGE
  | x :: xs => xs.foldl statusMax x

/-- zen.py `TargetType`. -/
inductive TargetType where
  | EXECUTABLE
  | STATIC_LIB
  | SHARED_LIB
  | UNKNOWN
deriving DecidableEq, Repr

/-- `Target.type_from_path`: determine the TargetType from the extension of
the file produced by the target (`os.path.splitext(path)[1]`, supplied here
as the extension string itself). -/
def type_from_path (ext : List Char) : TargetType :=
  if ext = [] then .EXECUTABLE
  else if ext = ['.', 'a'] then .STATIC_LIB
  else if ext = ['.', 's', 'o'] then .SHARED_LIB
  else .UNKNOWN

/-- zen.py `LIB_TYPES = {STATIC_LIB, SHARED_LIB}`. -/
def isLibType (t : TargetType) : Bool :=
  t = .STATIC_LIB ∨ t = .SHARED_LIB

/-- `ParsingException` as a value (fallible calls return `Except PErr _`). -/
inductive PErr where
  | parsing
deriving DecidableEq, Repr

/-- `CompileObject.sources_modified`.  `objMTime` is the object file's
mtime (`none` models the `FileNotFoundError` branch, which returns True);
`srcMTimes` are the sources' mtimes.  The source compares with
`own_m_time <= dep.m_time`. -/
def sources_modified (objMTime : Option Nat) (srcMTimes : List Nat) : Bool :=
  match objMTime with
  | none => true
  | some own => srcMTimes.any (fun dep => own ≤ dep)

/-- `verbose(...)`: prints its message iff the `verbose_opt` global is set.
Modelled as the list of lines written to stdout. -/
def verbose_out (verboseOpt : Bool) (msg : String) : List String :=
  if verboseOpt then [msg] else []

/-- `CompileObject.meditate`.  The two change checks are supplied as
`Except PErr Bool` values modelling `_has_code_changes()` and
`_has_used_content_change()` (each may raise a ParsingException).  Returns
(status, whether `avoid_build` ran, lines printed).  `and` short-circuits:
the second check only runs when the first succeeds with True; a
ParsingException from either check is caught and yields CHANGED. -/
def CompileObject_meditate (verboseOpt : Bool) (objMTime : Option Nat)
    (srcMTimes : List Nat) (hasCodeChanges hasUsedContentChange : Except PErr Bool) :
    Status × Bool × List String :=
  if sources_modified objMTime srcMTimes then
    let log := verbose_out verboseOpt "sources modified. Checking source."
    match hasCodeChanges with
    | .error _ => (.CHANGED, false, log)
    | .ok cc =>
      if cc then
        match hasUsedContentChange with
        | .error _ => (.CHANGED, false, log)
        | .ok uc =>
          if uc then (.CHANGED, false, log)
          else (.MINOR_CHANGE, true, log)
      else (.MINOR_CHANGE, true, log)
  else (.NO_CHANGE, false, [])

/-- Inputs of one `CompileObject.meditate` call. -/
structure ObjInput where
  objMTime : Option Nat
  srcMTimes : List Nat
  hasCodeChanges : Except PErr Bool
  hasUsedContentChange : Except PErr Bool

/-- `[o.meditate() for o in self.objects]` inside `Target.meditate`:
every object of the target is meditated, in list order. -/
def meditate_objects (verboseOpt : Bool) (objs : List ObjInput) :
    List (Status × Bool × List String) :=
  objs.map (fun o =>
    CompileObject_meditate verboseOpt o.objMTime o.srcMTimes
      o.hasCodeChanges o.hasUsedContentChange)

/-- A dependency path of a target, as consumed by `Target.lib_dependencies`
and `Target.other_dependencies`: its extension (`os.path.splitext`), its
mtime, and — for library dependencies — the status of the corresponding
library target after its own `meditate()` ran (the code looks the target up
in `build_dir.targets_by_path`). -/
structure Dep where
  ext : List Char
  mtime : Nat
  libStatus : Status

/-- `Target.lib_dependencies`: dependency paths whose target type is a
library type. -/
def lib_dependencies (deps : List Dep) : List Dep :=
  deps.filter (fun d => isLibType (type_from_path d.ext))

/-- `Target.other_dependencies`: dependency paths other than libraries and
`.o` object files. -/
def other_dependencies (deps : List Dep) : List Dep :=
  deps.filter (fun d =>
    ¬ isLibType (type_from_path d.ext) ∧ d.ext ≠ ['.', 'o'])

/-- `Target.other_status`: CHANGED iff any non-object, non-library
dependency has an mtime strictly greater than the target file's mtime. -/
def other_status (targetMTime : Nat) (deps : List Dep) : Status :=
  if (other_dependencies deps).any (fun d => targetMTime < d.mtime) then
    .CHANGED
  else .NO_CHANGE

/-- `Target.meditate`.  `prior` is the target's status on entry (the method
returns immediately unless it is UNCHECKED).  `objStatuses` are the statuses
of the target's objects after `[o.meditate() for o in self.objects]`; the
statuses of the library dependencies (after `lib.meditate()`) are carried in
each `Dep.libStatus`.  Returns (status, whether `avoid_build` / `touch -c`
ran on the target file path). -/
def Target_meditate (prior : Status) (objStatuses : List Status)
    (deps : List Dep) (fileExists : Bool) (targetMTime : Nat)
    (ttype : TargetType) : Status × Bool :=
  if prior ≠ .UNCHECKED then (prior, false)
  else
    let maxLibStatus := maxStatusOr ((lib_dependencies deps).map (·.libStatus))
    let maxObjStatus := maxStatusOr objStatuses
    let st :=
      if fileExists then
        statusMax (statusMax maxObjStatus maxLibStatus)
          (other_status targetMTime deps)
      else Status.CHANGED
    (st, st = Status.MINOR_CHANGE ∧ ttype ≠ TargetType.UNKNOWN)

/-- `main()` for the `meditate` task, for a build directory holding a single
compile object.  The module-global `verbose_opt` is initialised to `False`;
`main` parses arguments, runs the task, and only afterwards executes
`verbose_opt = user_args.verbose`.  Returns the lines printed during the
run and the final value of `verbose_opt`. -/
def main_model (verboseFlag : Bool) (obj : ObjInput) : List String × Bool :=
  let verboseOpt := false
  let ran := CompileObject_meditate verboseOpt obj.objMTime obj.srcMTimes
    obj.hasCodeChanges obj.hasUsedContentChange
  let verboseOptFinal := verboseFlag
  (ran.2.2, verboseOptFinal)

/-! ### MD5 (hashlib.md5), on byte lists

The source fingerprints strings with `int(hashlib.md5(s.encode()).hexdigest(), 16)`;
MD5 is embedded here so hash computations are concrete. -/

/-- 2^32, the word modulus of MD5. -/
def p32 : Nat := 4294967296

/-- 32-bit left rotation. -/
def rotl32 (x n : Nat) : Nat := ((x <<< n) ||| (x >>> (32 - n))) % p32

/-- MD5 round constants T[1..64] (RFC 1321). -/
def md5K : List Nat :=
  [0xd76aa478, 0xe8c7b756, 0x242070db, 0xc1bdceee,
   0xf57c0faf, 0x4787c62a, 0xa8304613, 0xfd469501,
   0x698098d8, 0x8b44f7af, 0xffff5bb1, 0x895cd7be,
   0x6b901122, 0xfd987193, 0xa679438e, 0x49b40821,
   0xf61e2562, 0xc040b340, 0x265e5a51, 0xe9b6c7aa,
   0xd62f105d, 0x02441453, 0xd8a1e681, 0xe7d3fbc8,
   0x21e1cde6, 0xc33707d6, 0xf4d50d87, 0x455a14ed,
   0xa9e3e905, 0xfcefa3f8, 0x676f02d9, 0x8d2a4c8a,
   0xfffa3942, 0x8771f681, 0x6d9d6122, 0xfde5380c,
   0xa4beea44, 0x4bdecfa9, 0xf6bb4b60, 0xbebfbc70,
   0x289b7ec6, 0xeaa127fa, 0xd4ef3085, 0x04881d05,
   0xd9d4d039, 0xe6db99e5, 0x1fa27cf8, 0xc4ac5665,
   0xf4292244, 0x432aff97, 0xab9423a7, 0xfc93a039,
   0x655b59c3, 0x8f0ccc92, 0xffeff47d, 0x85845dd1,
   0x6fa87e4f, 0xfe2ce6e0, 0xa3014314, 0x4e0811a1,
   0xf7537e82, 0xbd3af235, 0x2ad7d2bb, 0xeb86d391]

/-- MD5 per-round shift amounts. -/
def md5S : List Nat :=
  [7, 12, 17, 22, 7, 12, 17, 22, 7, 12, 17, 22, 7, 12, 17, 22,
   5, 9, 14, 20, 5, 9, 14, 20, 5, 9, 14, 20, 5, 9, 14, 20,
   4, 11, 16, 23, 4, 11, 16, 23, 4, 11, 16, 23, 4, 11, 16, 23,
   6, 10, 15, 21, 6, 10, 15, 21, 6, 10, 15, 21, 6, 10, 15, 21]

/-- MD5 round function and message index for round `i`. -/
def md5F (i b c d : Nat) : Nat × Nat :=
  if i < 16 then ((b &&& c) ||| ((b ^^^ 0xffffffff) &&& d), i)
  else if i < 32 then ((d &&& b) ||| ((d ^^^ 0xffffffff) &&& c), (5 * i + 1) % 16)
  else if i < 48 then (b ^^^ c ^^^ d, (3 * i + 5) % 16)
  else (c ^^^ (b ||| (d ^^^ 0xffffffff)), (7 * i) % 16)

/-- A single MD5 round applied to state (a, b, c, d). -/
def md5Step (M : List Nat) (st : Nat × Nat × Nat × Nat) (i : Nat) :
    Nat × Nat × Nat × Nat :=
  let (f, g) := md5F i st.2.1 st.2.2.1 st.2.2.2
  let tmp := (st.1 + f + md5K.getD i 0 + M.getD g 0) % p32
  (st.2.2.2, (st.2.1 + rotl32 tmp (md5S.getD i 0)) % p32, st.2.1, st.2.2.1)

/-- Process one 512-bit block (given as 16 little-endian words). -/
def md5Block (st : Nat × Nat × Nat × Nat) (M : List Nat) :
    Nat × Nat × Nat × Nat :=
  let r := (List.range 64).foldl (md5Step M) st
  ((st.1 + r.1) % p32, (st.2.1 + r.2.1) % p32,
   (st.2.2.1 + r.2.2.1) % p32, (st.2.2.2 + r.2.2.2) % p32)

/-- 8 little-endian bytes of a 64-bit length value. -/
def le8 (n : Nat) : List Nat := (List.range 8).map (fun i => (n >>> (8 * i)) % 256)

/-- 4 little-endian bytes of a 32-bit word. -/
def le4 (n : Nat) : List Nat := [n % 256, (n >>> 8) % 256, (n >>> 16) % 256, (n >>> 24) % 256]

/-- MD5 padding: 0x80, zeros to 56 mod 64, then the bit length. -/
def padBytes (msg : List Nat) : List Nat :=
  msg ++ [0x80] ++ List.replicate ((119 - msg.length % 64) % 64) 0
    ++ le8 ((8 * msg.length) % 2 ^ 64)

/-- Split a byte list into 64-byte blocks.  The first argument is
structural-recursion fuel; `l.length` is always sufficient because every
step drops 64 bytes of a non-empty list. -/
def chunkBytesGo : Nat → List Nat → List (List Nat)
  | 0, _ => []
  | fuel + 1, l => if l = [] then [] else l.take 64 :: chunkBytesGo fuel (l.drop 64)

/-- Split a byte list into 64-byte blocks. -/
def chunkBytes (l : List Nat) : List (List Nat) := chunkBytesGo l.length l

/-- The 16 little-endian message words of a 64-byte block. -/
def wordsOf (block : List Nat) : List Nat :=
  (List.range 16).map (fun j =>
    block.getD (4 * j) 0 + 256 * block.getD (4 * j + 1) 0
      + 65536 * block.getD (4 * j + 2) 0 + 16777216 * block.getD (4 * j + 3) 0)

/-- MD5 digest (16 bytes) of a byte list. -/
def md5Bytes (msg : List Nat) : List Nat :=
  let st := (chunkBytes (padBytes msg)).foldl (fun st b => md5Block st (wordsOf b))
    (0x67452301, 0xefcdab89, 0x98badcfe, 0x10325476)
  le4 st.1 ++ le4 st.2.1 ++ le4 st.2.2.1 ++ le4 st.2.2.2

/-- UTF-8 encoding of one character (Python `str.encode()`). -/
def utf8Char (c : Char) : List Nat :=
  let n := c.toNat
  if n < 0x80 then [n]
  else if n < 0x800 then [0xc0 ||| (n >>> 6), 0x80 ||| (n &&& 0x3f)]
  else if n < 0x10000 then
    [0xe0 ||| (n >>> 12), 0x80 ||| ((n >>> 6) &&& 0x3f), 0x80 ||| (n &&& 0x3f)]
  else
    [0xf0 ||| (n >>> 18), 0x80 ||| ((n >>> 12) &&& 0x3f),
     0x80 ||| ((n >>> 6) &&& 0x3f), 0x80 ||| (n &&& 0x3f)]

/-- UTF-8 encoding of a character list. -/
def utf8Bytes (s : List Char) : List Nat :=
  s.foldr (fun c acc => utf8Char c ++ acc) []

/-- `int(hashlib.md5(s.encode()).hexdigest(), 16)`: the digest bytes read as
a big-endian number (hex digest order). -/
def md5Int (s : List Char) : Nat :=
  (md5Bytes (utf8Bytes s)).foldl (fun a b => a * 256 + b) 0

/-! ### Content hashing (zen.py `join_hashes`, `iter_hash`) -/

/-- `join_hashes`: order-sensitive polynomial fold of sub-hashes,
`result = (result * 31 + sub_hash) % (2**127 - 1)` starting from 1. -/
def join_hashes (l : List Nat) : Nat :=
  l.foldl (fun r d => (r * 31 + d) % (2 ^ 127 - 1)) 1

/-- `iter_hash`: md5-digest each string, then `join_hashes`. -/
def iter_hash (ss : List (List Char)) : Nat := join_hashes (ss.map md5Int)

/-! ### Chunk.content_hash / Chunk.line_strings

A chunk's character sequence (as produced by `Chunk.__iter__`) is taken as
a `List Char`. -/

/-- Accumulating loop of `Chunk.line_strings`: builds up `line_s` character
by character and yields it after each `'\n'`; a trailing remainder without
a newline is never yielded. -/
def lineStringsGo (acc : List Char) : List Char → List (List Char)
  | [] => []
  | c :: rest =>
    if c = '\n' then (acc ++ [c]) :: lineStringsGo [] rest
    else lineStringsGo (acc ++ [c]) rest

/-- `Chunk.line_strings` on the chunk's character sequence. -/
def line_strings (cs : List Char) : List (List Char) := lineStringsGo [] cs

/-- `Chunk.content_hash`: iter_hash over the line strings, each with its
trailing newline removed (`s[:-1] if s.endswith('\n') else s`). -/
def content_hash (cs : List Char) : Nat :=
  iter_hash ((line_strings cs).map
    (fun s => if s.getLast? = some '\n' then s.dropLast else s))

/-! ### Python string helpers used by the Line / SourceContent model -/

/-- Python `str`-default whitespace (ASCII part; the embedded sources are
ASCII). -/
def isPyWs (c : Char) : Bool :=
  c = ' ' ∨ c = '\t' ∨ c = '\n' ∨ c = '\r' ∨ c = '\x0b' ∨ c = '\x0c'

/-- Search loop of `str.find(sub, i)` over the remaining suffix. -/
def findSubGo (pat : List Char) : List Char → Nat → Option Nat
  | [], i => if pat.isPrefixOf ([] : List Char) then some i else none
  | s@(_ :: rest), i =>
    if pat.isPrefixOf s then some i else findSubGo pat rest (i + 1)

/-- Python `s.find(pat, i)` (`none` models -1). -/
def pyFindSub (pat s : List Char) (i : Nat) : Option Nat :=
  findSubGo pat (s.drop i) i

/-- Python `sep.join(parts)` for a one-character separator. -/
def joinSep (sep : Char) : List (List Char) → List Char
  | [] => []
  | [x] => x
  | x :: xs => x ++ sep :: joinSep sep xs

/-- Splitting loop of Python `str.split()` (split on whitespace runs,
dropping empty parts); `cur` holds the current word reversed. -/
def splitWsGo (cur : List Char) : List Char → List (List Char)
  | [] => if cur.isEmpty then [] else [cur.reverse]
  | c :: cs =>
    if isPyWs c then
      if cur.isEmpty then splitWsGo [] cs else cur.reverse :: splitWsGo [] cs
    else splitWsGo (c :: cur) cs

/-- Python `str.split()` with no arguments. -/
def pySplitWs (s : List Char) : List (List Char) := splitWsGo [] s

/-- Python `str.strip()` with no arguments. -/
def pyStrip (s : List Char) : List Char :=
  ((s.dropWhile isPyWs).reverse.dropWhile isPyWs).reverse

theorem findSubGo_le (pat : List Char) :
    ∀ t i j, findSubGo pat t i = some j → i ≤ j ∧ j - i + pat.length ≤ t.length := by
  intro t
  induction t with
  | nil =>
    intro i j h
    simp only [findSubGo] at h
    split at h
    · rename_i hp
      cases h
      have := List.IsPrefix.length_le (List.isPrefixOf_iff_prefix.mp hp)
      simp at this
      simp [this]
    · exact Option.noConfusion h
  | cons c rest ih =>
    intro i j h
    simp only [findSubGo] at h
    split at h
    · rename_i hp
      cases h
      have := List.IsPrefix.length_le (List.isPrefixOf_iff_prefix.mp hp)
      simp only [List.length_cons] at this ⊢
      omega
    · have := ih (i + 1) j h
      simp only [List.length_cons]
      omega

theorem pyFindSub_bounds (pat s : List Char) (i j : Nat)
    (h : pyFindSub pat s i = some j) :
    i ≤ j ∧ j + pat.length ≤ max s.length i := by
  have := findSubGo_le pat (s.drop i) i j h
  simp only [List.length_drop] at this
  omega

/-! ### SourceContent.strip_comments / Line.stripped / stripped_hash -/

/-- Block-comment removal loop inside `strip_comments` for one raw line:
carries `in_block` and collects the non-comment `chunks` of the line,
searching alternately for `*/` and `/*`.  The first argument is
structural-recursion fuel; `s.length + 1` always suffices because each
iteration advances the search index `i` by at least two while it stays
at most `s.length`. -/
def uncommentGo (s : List Char) : Nat → Bool → List (List Char) → Nat →
    List (List Char) × Bool
  | 0, inBlock, chunks, _ => (chunks, inBlock)
  | fuel + 1, inBlock, chunks, i =>
    if inBlock then
      match pyFindSub ['*', '/'] s i with
      | none => (chunks, true)
      | some e => uncommentGo s fuel false chunks (e + 2)
    else
      match pyFindSub ['/', '*'] s i with
      | none => (chunks ++ [s.drop i], false)
      | some st => uncommentGo s fuel true (chunks ++ [(s.drop i).take (st - i)]) (st + 2)

/-- One line of `SourceContent.strip_comments`: remove block comments
(joining the kept chunks with a single space), truncate at `//`, and
restore a trailing newline lost to comment removal.  Returns the
uncommented line and the updated `in_block` flag. -/
def uncommentLine (raw : List Char) (inBlock : Bool) : List Char × Bool :=
  let r := uncommentGo raw (raw.length + 1) inBlock [] 0
  let unblocked := joinSep ' ' r.1
  let unc :=
    match pyFindSub ['/', '/'] unblocked 0 with
    | none => unblocked
    | some j => unblocked.take j
  let unc :=
    if raw.getLast? = some '\n' ∧ unc.getLast? ≠ some '\n' then unc ++ ['\n']
    else unc
  (unc, r.2)

/-- `strip_comments` over the line list, threading `in_block` across
lines; returns the uncommented form of every line. -/
def stripCommentsGo (inBlock : Bool) : List (List Char) → List (List Char)
  | [] => []
  | r :: rs =>
    (uncommentLine r inBlock).1 :: stripCommentsGo (uncommentLine r inBlock).2 rs

/-- `SourceContent.strip_comments()` starting outside any block comment. -/
def strip_comments (raws : List (List Char)) : List (List Char) :=
  stripCommentsGo false raws

/-- `Line.stripped`: whitespace runs collapsed to single spaces
(`' '.join(self.uncommented.split())`), plus the trailing newline of the
uncommented form. -/
def line_stripped (unc : List Char) : List Char :=
  joinSep ' ' (pySplitWs unc) ++ (if unc.getLast? = some '\n' then ['\n'] else [])

/-- `SourceContent.stripped_hash`: iter_hash over
`line.stripped.strip()` for each line whose stripped form is not `"\n"`. -/
def stripped_hash (raws : List (List Char)) : Nat :=
  iter_hash ((((strip_comments raws).map line_stripped).filter
    (fun s => s ≠ ['\n'])).map pyStrip)

/-- The exact input sequence fed to `iter_hash` by `stripped_hash`. -/
def strippedHashInputs (raws : List (List Char)) : List (List Char) :=
  (((strip_comments raws).map line_stripped).filter (fun s => s ≠ ['\n'])).map pyStrip

/-! ### SourcePos and its arithmetic

A SourcePos addresses a SourceContent in one form; here the content is the
list of its line strings in that form (`line.s(form)`), and the immutable
(content, form) components are carried as this list. -/

/-- A source position: line index and column index. -/
structure SrcPos where
  lineI : Nat
  colI : Nat
deriving DecidableEq, Repr

/-- The line string at index `i` (`file_content.lines[i]`). -/
def lineAt (L : List (List Char)) (i : Nat) : List Char := L.getD i []

/-- The `SourcePos.__init__` normalisation for non-negative in-range
indices: when the column equals the current line's length and a next line
exists, the position advances to column 0 of the next line. -/
def mkPos (L : List (List Char)) (lineI colI : Nat) : SrcPos :=
  if colI = (lineAt L lineI).length ∧ lineI < L.length - 1 then ⟨lineI + 1, 0⟩
  else ⟨lineI, colI⟩

/-- The `for line in self.file_content.lines[self.line_i + 1:]` loop of
`SourcePos.__add__`; `i` tracks `line.index` and `none` models the
ValueError raised when `n` is too large. -/
def addGo (L : List (List Char)) : List (List Char) → Nat → Nat → Option SrcPos
  | [], _, _ => none
  | l :: ls, i, n =>
    if n ≤ l.length then some (mkPos L i n) else addGo L ls (i + 1) (n - l.length)

/-- `SourcePos.__add__` for a non-negative operand. -/
def addNat (L : List (List Char)) (p : SrcPos) (n : Nat) : Option SrcPos :=
  let remaining := (lineAt L p.lineI).length - p.colI
  if n ≤ remaining then some (mkPos L p.lineI (p.colI + n))
  else addGo L (L.drop (p.lineI + 1)) (p.lineI + 1) (n - remaining)

/-- The `for line in reversed(self.file_content.lines[:self.line_i])` loop
of `SourcePos.__sub__`. -/
def subGo (L : List (List Char)) : List (List Char) → Nat → Nat → Option SrcPos
  | [], _, _ => none
  | l :: ls, i, n =>
    if n ≤ l.length then some (mkPos L i (l.length - n))
    else subGo L ls (i - 1) (n - l.length)

/-- `SourcePos.__sub__` for a non-negative operand. -/
def subNat (L : List (List Char)) (p : SrcPos) (n : Nat) : Option SrcPos :=
  if n ≤ p.colI then some (mkPos L p.lineI (p.colI - n))
  else subGo L ((L.take p.lineI).reverse) (p.lineI - 1) (n - p.colI)

/-- `SourcePos.__add__`: a negative operand swaps to subtraction. -/
def addZ (L : List (List Char)) (p : SrcPos) (n : Int) : Option SrcPos :=
  if n < 0 then subNat L p n.natAbs else addNat L p n.toNat

/-- `SourcePos.__sub__`: a negative operand swaps to addition. -/
def subZ (L : List (List Char)) (p : SrcPos) (n : Int) : Option SrcPos :=
  if n < 0 then addNat L p n.natAbs else subNat L p n.toNat

/-- Total length of a list of line strings. -/
def sumLen (ls : List (List Char)) : Nat := (ls.map List.length).sum

/-- Character offset of a position from the start of the content. -/
def toOff (L : List (List Char)) (p : SrcPos) : Nat :=
  sumLen (L.take p.lineI) + p.colI

/-- A constructed (normalised) position: strictly inside its line, or the
end position of the last line. -/
def PosValid (L : List (List Char)) (p : SrcPos) : Prop :=
  p.lineI < L.length ∧
    (p.colI < (lineAt L p.lineI).length ∨
      (p.colI = (lineAt L p.lineI).length ∧ p.lineI = L.length - 1))

/-- Every line except possibly the last is non-empty.  This holds for every
line list the program builds: raw lines come from terminator-preserving
splitting, and the uncommented/stripped forms preserve the trailing
newline of every non-final line (see C6). -/
def MidNonempty (L : List (List Char)) : Prop :=
  ∀ i < L.length - 1, lineAt L i ≠ []

/-! ### Construct graph (zen.py `Construct`, `ConstructGraph`) -/

/-- The view of a Component used by `used_constructs`: its token list and
its `name` attribute when it has one (`getattr(self, 'name', None)`). -/
structure CompView where
  tokens : List String
  cname : Option String
deriving DecidableEq, Repr

/-- `Component.used_constructs`: tokens that name a construct of the graph
and differ from the component's own name.  (Python builds a dict keyed by
token; the callers below only test membership, so a list of names is an
equivalent view.) -/
def used_constructs (c : CompView) (names : List String) : List String :=
  c.tokens.filter (fun tk => tk ∈ names ∧ c.cname ≠ some tk)

/-- A ConstructGraph: constructs keyed by name, each with its content
component list (constructs are identified by their unique name). -/
structure ConstructGraph where
  constructs : List (String × List CompView)
deriving Repr

/-- Names present in the graph (`self.graph.constructs` keys). -/
def graphNames (g : ConstructGraph) : List String := g.constructs.map (·.1)

/-- Content components of the named construct. -/
def graphContent (g : ConstructGraph) (n : String) : List CompView :=
  (((g.constructs.find? (fun p => p.1 = n)).map (·.2)).getD [])

/-- `Construct._dep_search`, with the mutated `visited` set threaded
through (represented as a duplicate-free list).  `fuel` bounds the
recursion depth; the Python recursion terminates because every recursive
call receives a construct that was just added to `visited` and therefore
returns at its first line. -/
def dep_search (g : ConstructGraph) : Nat → String → List String → Bool → List String
  | 0, _, visited, _ => visited
  | fuel + 1, construct, visited, recurse =>
    if construct ∈ visited then visited
    else
      (graphContent g construct).foldl (fun vis comp =>
        (used_constructs comp (graphNames g)).foldl (fun vis dep =>
          if dep ∈ vis then vis
          else if recurse then dep_search g fuel dep (vis ++ [dep]) true
          else vis ++ [dep]) vis) visited

/-- `Construct.recursive_dependencies`: `_dep_search(self, deps, recurse=True)`
followed by `deps.remove(self)` — Python `set.remove` raises KeyError when
the element is absent, modelled as `.error`. -/
def recursive_dependencies (g : ConstructGraph) (construct : String) :
    Except Unit (List String) :=
  let deps := dep_search g (g.constructs.length + 1) construct [] true
  if construct ∈ deps then .ok (deps.erase construct) else .error ()

/-- Concrete dependency chain a → b → c used to exhibit the
`recursive_dependencies` crash: construct `a` references `b`, `b`
references `c`, `c` references nothing. -/
def chainGraph : ConstructGraph :=
  ⟨[("a", [⟨["b"], none⟩]), ("b", [⟨["c"], none⟩]), ("c", [])]⟩

/-! ### Component factory (zen.py `Component.create` and the scope walker)

Block chunks address the STRIPPED form, so the file content is embedded
flat as the concatenation of its stripped line strings (`content`), with a
chunk being the half-open index interval `[start, stop)`.  Positions are
flat indices; position arithmetic across lines is transparent (C8), and
`pos.col_i == 0` is the flat condition `pos = 0 ∨ content[pos-1] = '\n'`
because every non-final stripped line ends in `'\n'` (C6).

All loops take explicit structural-recursion fuel as their first `Nat`
argument; callers pass `stop + 1 - pos`, which always suffices because
every iteration advances the scan position by at least one while it stays
within bounds.  Fuel exhaustion yields the marker error `.fuel`, which the
theorems show is never produced on the inputs they cover. -/

/-- zen.py `ScopeType`. -/
inductive ScopeType where
  | GLOBAL
  | CLASS
  | FUNC
deriving DecidableEq, Repr

/-- Error outcomes of the parsing layer: `ParsingException`, `ValueError` /
`TypeError`, `KeyError` (from `find_in_scope`), `ComponentCreationError`,
and the out-of-fuel marker. -/
inductive FErr where
  | parse
  | value
  | key
  | creation
  | fuel
deriving DecidableEq, Repr

/-- `BRACKETS[c]`: the closing bracket for an opening one. -/
def bracketClose : Char → Char
  | '(' => ')'
  | '{' => '}'
  | '[' => ']'
  | '<' => '>'
  | c => c

/-- Is `c` an opening bracket (`c in BRACKETS`)? -/
def isOpenBracket (c : Char) : Bool :=
  c = '(' ∨ c = '{' ∨ c = '[' ∨ c = '<'

/-- Is `c` a quote character (`c in '\'"'`)? -/
def isQuote (c : Char) : Bool := c = '\'' ∨ c = '"'

/-- Loop of `Chunk.find_quote_end` over `self[pos + 1:]`: honours `\\`
escapes, rejects a newline (`ValueError`), and yields the index of the
matching quote.  Running off the chunk end models Python returning `None`,
which crashes the caller (`TypeError`) — both are `.value`. -/
def findQuoteGo (content : List Char) (stop : Nat) (q : Char) :
    Nat → Nat → Bool → Except FErr Nat
  | 0, _, _ => .error .fuel
  | fuel + 1, j, escaped =>
    if j < stop then
      let c := content.getD j ' '
      if escaped then findQuoteGo content stop q fuel (j + 1) false
      else if c = '\\' then findQuoteGo content stop q fuel (j + 1) true
      else if c = '\n' then .error .value
      else if c = q then .ok j
      else findQuoteGo content stop q fuel (j + 1) false
    else .error .value

/-- `Chunk.find_quote_end`. -/
def findQuoteEnd (content : List Char) (stop pos : Nat) : Except FErr Nat :=
  let qc := content.getD pos ' '
  if isQuote qc then findQuoteGo content stop qc (stop + 1 - pos) (pos + 1) false
  else .error .value

/-- Loop of `Chunk.find_pair`: depth counting over same-type brackets,
quotes skipped via `find_quote_end`, `;` rejected when `allow_semicolon`
is False, chunk exhaustion a ParsingException. -/
def findPairGo (content : List Char) (stop : Nat) (bg ec : Char)
    (allowSemi : Bool) : Nat → Nat → Int → Except FErr Nat
  | 0, _, _ => .error .fuel
  | fuel + 1, pos, depth =>
    if pos < stop then
      let c := content.getD pos ' '
      let depth1 : Int :=
        if c = bg then depth + 1 else if c = ec then depth - 1 else depth
      if c = ec ∧ depth1 = 0 then .ok pos
      else if c = ';' ∧ ¬ allowSemi then .error .parse
      else if isQuote c then
        match findQuoteGo content stop c (stop + 1 - pos) (pos + 1) false with
        | .error e => .error e
        | .ok qe => findPairGo content stop bg ec allowSemi fuel (qe + 1) depth1
      else findPairGo content stop bg ec allowSemi fuel (pos + 1) depth1
    else .error .parse

/-- `Chunk.find_pair(start_pos, allow_semicolon)`: validates that an
opening bracket sits at `start_pos` (`ValueError` otherwise) and scans for
its partner. -/
def find_pair (content : List Char) (stop pos : Nat) (allowSemi : Bool) :
    Except FErr Nat :=
  let b := content.getD pos ' '
  if isOpenBracket b then
    findPairGo content stop b (bracketClose b) allowSemi (stop + 1 - pos) pos 0
  else .error .value

/-- `\w`-style word characters of the default token regex `[\w0-9]+`
(ASCII range; the embedded sources are ASCII). -/
def wordChar (c : Char) : Bool := c.isAlphanum ∨ c = '_'

/-- Maximal-word-run tokenizer implementing `re.findall(r"[\w0-9]+", s)`;
`cur` holds the current token reversed. -/
def tokGo : List Char → List Char → List (List Char)
  | cur, [] => if cur.isEmpty then [] else [cur.reverse]
  | cur, c :: cs =>
    if wordChar c then tokGo (c :: cur) cs
    else if cur.isEmpty then tokGo [] cs
    else cur.reverse :: tokGo [] cs

/-- `re.findall(r"[\w0-9]+", s)`. -/
def tokenizeWords (s : List Char) : List (List Char) := tokGo [] s

/-- Loop of `scope_tokens`: walks the chunk, jumping over bracket pairs
and string literals, accumulating every other character into `s`. -/
def scopeTokensGo (content : List Char) (stop : Nat) :
    Nat → Nat → List Char → Except FErr (List Char)
  | 0, _, _ => .error .fuel
  | fuel + 1, pos, s =>
    if pos < stop then
      let c := content.getD pos ' '
      if isOpenBracket c then
        match find_pair content stop pos true with
        | .error e => .error e
        | .ok p => scopeTokensGo content stop fuel (p + 1) s
      else if isQuote c then
        match findQuoteEnd content stop pos with
        | .error e => .error e
        | .ok p => scopeTokensGo content stop fuel (p + 1) s
      else scopeTokensGo content stop fuel (pos + 1) (s ++ [c])
    else .ok s

/-- `scope_tokens(chunk)` on the chunk `[start, stop)`. -/
def scope_tokens (content : List Char) (start stop : Nat) :
    Except FErr (List (List Char)) :=
  match scopeTokensGo content stop (stop + 1 - start) start [] with
  | .error e => .error e
  | .ok s => .ok (tokenizeWords s)

/-- Loop of `find_in_scope(sub_str, chunk)`: top-level scan that descends
past bracket pairs and quoted strings (resetting the accumulator to the
closing character), returning the position of the first in-scope match;
exhaustion raises KeyError. -/
def findInScopeGo (content : List Char) (stop : Nat) (sub : List Char) :
    Nat → Nat → List Char → Except FErr Nat
  | 0, _, _ => .error .fuel
  | fuel + 1, pos, s =>
    if sub.isSuffixOf s then .ok (pos - sub.length)
    else if pos < stop then
      let c := content.getD pos ' '
      if (isOpenBracket c ∨ isQuote c) ∧ sub.isSuffixOf (s ++ [c]) then
        .ok (pos - (sub.length - 1))
      else if isOpenBracket c then
        match find_pair content stop pos true with
        | .error e => .error e
        | .ok p => findInScopeGo content stop sub fuel (p + 1) [bracketClose c]
      else if isQuote c then
        match findQuoteEnd content stop pos with
        | .error e => .error e
        | .ok p => findInScopeGo content stop sub fuel (p + 1) [c]
      else findInScopeGo content stop sub fuel (pos + 1) (s ++ [c])
    else .error .key

/-- `find_in_scope(sub_str, chunk)` on the chunk `[start, stop)`. -/
def find_in_scope (content : List Char) (start stop : Nat) (sub : List Char) :
    Except FErr Nat :=
  findInScopeGo content stop sub (stop + 1 - start) start []

/-- The trailing scan after a class body's `}`: step past whitespace to a
mandatory `;`; any other character, or chunk exhaustion, is a
ParsingException. -/
def trailScan (content : List Char) (stop : Nat) : Nat → Nat → Except FErr Nat
  | 0, _ => .error .fuel
  | fuel + 1, j =>
    if j < stop then
      let c := content.getD j ' '
      if c = ';' then .ok j
      else if isPyWs c then trailScan content stop fuel (j + 1)
      else .error .parse
    else .error .parse

/-- End of a preprocessor directive (`PreprocessorComponent.create`): the
first line (scanning from the line start `i`) whose text before the
newline does not end in `\` ends the directive; a final unterminated line
ending in `\` is a ParsingException.  (The flat model scans the file's
lines; the chunk the parser passes ends at a line boundary.) -/
def ppEnd (content : List Char) : Nat → Nat → Except FErr Nat
  | 0, _ => .error .fuel
  | fuel + 1, i =>
    match pyFindSub ['\n'] content i with
    | some nl =>
      if i < nl ∧ content.getD (nl - 1) ' ' = '\\' then ppEnd content fuel (nl + 1)
      else .ok (nl + 1)
    | none =>
      if i + 2 ≤ content.length ∧ content.getD (content.length - 2) ' ' = '\\' then
        .error .parse
      else .ok content.length

/-- First non-whitespace index in `[a, b)` (the forward loop of
`Chunk.strip`). -/
def firstNonWsGo (content : List Char) (b : Nat) : Nat → Nat → Option Nat
  | 0, _ => none
  | fuel + 1, a =>
    if a < b then
      if isPyWs (content.getD a ' ') then firstNonWsGo content b fuel (a + 1)
      else some a
    else none

/-- Backward loop of `Chunk.strip`: last non-whitespace index at or after
the known first one `f`. -/
def lastNonWsGo (content : List Char) (f : Nat) : Nat → Nat
  | 0 => f
  | e + 1 =>
    if e + 1 ≤ f then f
    else if isPyWs (content.getD (e + 1) ' ') then lastNonWsGo content f e
    else e + 1

/-- `Chunk.strip()` on `[a, b)` as stripped bounds; a whitespace-only
chunk raises `ValueError('No non-whitespace content...')`. -/
def stripBounds (content : List Char) (a b : Nat) : Except FErr (Nat × Nat) :=
  match firstNonWsGo content b (b - a) a with
  | none => .error .value
  | some f => .ok (f, lastNonWsGo content f (b - 1) + 1)

/-- The component variants produced by the factory. -/
inductive CompKind where
  | label
  | classForward
  | usingStmt
  | funcDecl
  | memberFuncDecl
  | miscStmt
  | preprocessor
  | namespaceComp
  | classDef
  | controlBlock
  | funcDef
  | memberFuncDef
deriving DecidableEq, Repr

/-- A constructed component: its variant, its chunk bounds after
`Component.__init__`'s `strip()`, and its `name` when the constructor
computes one eagerly. -/
structure Comp where
  kind : CompKind
  cstart : Nat
  cend : Nat
  cnm : Option (List Char) := none
deriving DecidableEq, Repr

/-- A constructor that only runs `Component.__init__` (strip). -/
def mkComp (kind : CompKind) (content : List Char) (a b : Nat) :
    Except FErr Comp :=
  match stripBounds content a b with
  | .error e => .error e
  | .ok (x, y) => .ok ⟨kind, x, y, none⟩

/-- `content[a:b]` as a character list. -/
def sliceChars (content : List Char) (a b : Nat) : List Char :=
  (content.take b).drop a

/-- Python `list.index(x)` (`none` models the ValueError). -/
def listIndex (x : List Char) : List (List Char) → Option Nat
  | [] => none
  | y :: ys => if y = x then some 0 else (listIndex x ys).map (· + 1)

/-- `CppClassForwardDeclaration.__init__`: strip, then
`name = self.chunk.tokenize()[-1]` (IndexError on an empty token list). -/
def fwdDeclMk (content : List Char) (a b : Nat) : Except FErr Comp :=
  match stripBounds content a b with
  | .error e => .error e
  | .ok (x, y) =>
    match (tokenizeWords (sliceChars content x y)).getLast? with
    | none => .error .value
    | some nm => .ok ⟨.classForward, x, y, some nm⟩

/-- `CppClassDefinition.__init__`: strip; inner block
`Block(chunk[find_in_scope('{') : chunk.end - 1], CLASS)` (whose init
strips); `name = prefix_tokens[prefix_tokens.index('class') + 1]` where
`prefix_tokens = scope_tokens(chunk[:block_start])`. -/
def classDefMk (content : List Char) (a b : Nat) : Except FErr Comp :=
  match stripBounds content a b with
  | .error e => .error e
  | .ok (x, y) =>
    match find_in_scope content x y (['{'] : List Char) with
    | .error e => .error e
    | .ok bs =>
      match stripBounds content bs (y - 1) with
      | .error e => .error e
      | .ok _ =>
        match scope_tokens content x bs with
        | .error e => .error e
        | .ok toks =>
          match listIndex (("class").data) toks with
          | none => .error .value
          | some ci =>
            match toks[ci + 1]? with
            | none => .error .value
            | some nm => .ok ⟨.classDef, x, y, some nm⟩

/-- `NamespaceComponent.__init__`: strip; `Block(chunk[find_in_scope('{'):])`
(whose init strips). -/
def namespaceMk (content : List Char) (a b : Nat) : Except FErr Comp :=
  match stripBounds content a b with
  | .error e => .error e
  | .ok (x, y) =>
    match find_in_scope content x y (['{'] : List Char) with
    | .error e => .error e
    | .ok bs =>
      match stripBounds content bs y with
      | .error e => .error e
      | .ok _ => .ok ⟨.namespaceComp, x, y, none⟩

/-- `FunctionDefinition.__init__` (also the member variant): strip; inner
block at `find_in_scope('{')` (init strips); `name` is the last
scope-token before `find_in_scope('(')`. -/
def funcDefMk (kind : CompKind) (content : List Char) (a b : Nat) :
    Except FErr Comp :=
  match stripBounds content a b with
  | .error e => .error e
  | .ok (x, y) =>
    match find_in_scope content x y (['{'] : List Char) with
    | .error e => .error e
    | .ok bs =>
      match stripBounds content bs y with
      | .error e => .error e
      | .ok _ =>
        match find_in_scope content x y (['('] : List Char) with
        | .error e => .error e
        | .ok fp =>
          match scope_tokens content x fp with
          | .error e => .error e
          | .ok toks =>
            match toks.getLast? with
            | none => .error .value
            | some nm => .ok ⟨kind, x, y, some nm⟩

/-- `ControlBlock.__init__`: strip; inner block at `find_in_scope('{')`
(init strips, scope CLASS). -/
def controlBlockMk (content : List Char) (a b : Nat) : Except FErr Comp :=
  match stripBounds content a b with
  | .error e => .error e
  | .ok (x, y) =>
    match find_in_scope content x y (['{'] : List Char) with
    | .error e => .error e
    | .ok bs =>
      match stripBounds content bs y with
      | .error e => .error e
      | .ok _ => .ok ⟨.controlBlock, x, y, none⟩

/-- Python `sub in s` (substring containment). -/
def hasSub (pat s : List Char) : Bool := (pyFindSub pat s 0).isSome

/-- The scanning loop of `Component.create`, branch for branch.  `s` is the
accumulator of structurally significant characters; each loop iteration
consumes one unit of fuel.  The `try: pos += 1 / except ValueError: break`
at the loop bottom is unreachable for in-file chunks (reading `chunk[pos]`
raises IndexError first at the chunk end), so it has no flat counterpart. -/
def createLoop (content : List Char) (start stop : Nat) (scope : ScopeType) :
    Nat → Nat → List Char → Except FErr Comp
  | 0, _, _ => .error .fuel
  | fuel + 1, pos, s =>
    if pos < stop then
      let c := content.getD pos ' '
      if ¬ hasSub ("class").data s ∧ ¬ hasSub ("()").data s ∧ c ≠ ':' ∧
          ([':'] : List Char).isSuffixOf s ∧ ¬ ((("::").data).isSuffixOf s) then
        mkComp .label content start pos
      else if c = ';' then
        let s1 := s ++ [';']
        if scope = .FUNC then mkComp .miscStmt content start (pos + 1)
        else if hasSub ("class").data s1 then fwdDeclMk content start (pos + 1)
        else if hasSub ("using").data s1 then mkComp .usingStmt content start (pos + 1)
        else if hasSub ("()").data s1 then
          if scope = .GLOBAL then mkComp .funcDecl content start (pos + 1)
          else mkComp .memberFuncDecl content start (pos + 1)
        else mkComp .miscStmt content start (pos + 1)
      else if (pos = 0 ∨ content.getD (pos - 1) ' ' = '\n') ∧ c = '#' then
        match ppEnd content (content.length + 1 - pos) pos with
        | .error e => .error e
        | .ok e => mkComp .preprocessor content pos e
      else if isPyWs c then createLoop content start stop scope fuel (pos + 1) s
      else if c = '<' ∧ scope ≠ .FUNC then
        match find_pair content stop pos false with
        | .ok p => createLoop content start stop scope fuel (p + 1) (s ++ ("<>").data)
        | .error .parse => createLoop content start stop scope fuel (pos + 1) s
        | .error e => .error e
      else if c = '(' then
        match find_pair content stop pos true with
        | .error e => .error e
        | .ok p => createLoop content start stop scope fuel (p + 1) (s ++ ("()").data)
      else if c = '[' then
        match find_pair content stop pos true with
        | .error e => .error e
        | .ok p => createLoop content start stop scope fuel (p + 1) (s ++ ("[]").data)
      else if c = '{' then
        match scope_tokens content start pos with
        | .error e => .error e
        | .ok pts =>
          match find_pair content stop pos true with
          | .error e => .error e
          | .ok p =>
            if hasSub ("namespace").data s then namespaceMk content start (p + 1)
            else if hasSub ("class").data s then
              match trailScan content stop (stop + 1 - p) (p + 1) with
              | .error e => .error e
              | .ok semi => classDefMk content start (semi + 1)
            else if hasSub ("()").data s then
              if pts.any (fun tk => tk = ("if").data ∨ tk = ("for").data ∨
                  tk = ("while").data ∨ tk = ("do").data) then
                controlBlockMk content start (p + 1)
              else if scope = .FUNC ∧ ¬ hasSub ("[]").data s then .error .parse
              else if scope = .GLOBAL then funcDefMk .funcDef content start (p + 1)
              else if scope = .CLASS then funcDefMk .memberFuncDef content start (p + 1)
              else .error .creation
            else createLoop content start stop scope fuel (p + 1) s
      else createLoop content start stop scope fuel (pos + 1) (s ++ [c])
    else .error .creation

/-- `Component.create(chunk, scope)` on the chunk `[start, stop)`: the
factory emits exactly one component per call, or raises. -/
def Component_create (content : List Char) (start stop : Nat)
    (scope : ScopeType) : Except FErr Comp :=
  createLoop content start stop scope (stop + 1 - start) start []

/-! ### Theorems -/

theorem statusMax_assoc : ∀ a b c : Status,
    statusMax (statusMax a b) c = statusMax a (statusMax b c) := by decide

theorem foldl_statusMax_pull (bs : List Status) :
    ∀ m b, bs.foldl statusMax (statusMax m b) = statusMax m (bs.foldl statusMax b) := by
  induction bs with
  | nil => intro m b; rfl
  | cons c cs ih =>
    intro m b
    show cs.foldl statusMax (statusMax (statusMax m b) c) = _
    rw [statusMax_assoc, ih]
    rfl

theorem maxStatusOr_flatten (A B : List Status) (x : Status) (hx : 2 ≤ statusVal x) :
    maxStatusOr (A ++ B ++ [x]) = statusMax (statusMax (maxStatusOr A) (maxStatusOr B)) x := by
  cases A with
  | nil =>
    cases B with
    | nil => revert hx; revert x; decide
    | cons b bs =>
      have h1 : maxStatusOr ([] ++ (b :: bs) ++ [x]) = statusMax (bs.foldl statusMax b) x := by
        show (bs ++ [x]).foldl statusMax b = _
        rw [List.foldl_append]
        rfl
      rw [h1]
      have h2 : ∀ m y : Status, 2 ≤ statusVal y →
          statusMax m y = statusMax (statusMax Status.NO_CHANGE m) y := by decide
      exact h2 _ x hx
  | cons a as =>
    have h1 : maxStatusOr ((a :: as) ++ B ++ [x])
        = statusMax (B.foldl statusMax (as.foldl statusMax a)) x := by
      show ((as ++ B) ++ [x]).foldl statusMax a = _
      rw [List.foldl_append, List.foldl_append]
      rfl
    rw [h1]
    cases B with
    | nil =>
      have h3 : ∀ m y : Status, 2 ≤ statusVal y →
          statusMax m y = statusMax (statusMax m Status.NO_CHANGE) y := by decide
      exact h3 _ x hx
    | cons b bs =>
      show statusMax (bs.foldl statusMax (statusMax (as.foldl statusMax a) b)) x = _
      rw [foldl_statusMax_pull]
      rfl

/-- Claim C1 counterexample: `sources_modified` is *not* characterised by
"some source's mtime strictly exceeds the object's": with the object's
mtime equal to the single source's mtime (both 5), the code reports the
sources as modified even though the object file exists and no source's
mtime strictly exceeds 5. -/
theorem C1_strictly_exceeds_false :
    sources_modified (some 5) [5] = true ∧
      ¬ ((some 5 = (none : Option Nat)) ∨ ∃ t ∈ [(5 : Nat)], 5 < t) := by
  refine ⟨by decide, ?_⟩
  rintro (h | ⟨t, ht, hlt⟩)
  · exact Option.noConfusion h
  · simp only [List.mem_singleton] at ht
    omega

/-- Claim C1 (amended): `sources_modified` is true exactly when the object
file is missing or some source file's mtime is greater than **or equal to**
the object's mtime (the code compares `own_m_time <= dep.m_time`); when it
is false, `CompileObject.meditate` sets the status to NO_CHANGE and stops —
the result does not depend on the change checks, no back-dating happens and
nothing is printed. -/
theorem C1_sources_modified_spec (vopt : Bool) (objMTime : Option Nat)
    (srcs : List Nat) (hc hu : Except PErr Bool) :
    (sources_modified objMTime srcs = true ↔
      (objMTime = none ∨ ∃ o t, objMTime = some o ∧ t ∈ srcs ∧ o ≤ t)) ∧
    (sources_modified objMTime srcs = false →
      CompileObject_meditate vopt objMTime srcs hc hu = (.NO_CHANGE, false, [])) := by
  constructor
  · cases objMTime with
    | none => simp [sources_modified]
    | some o =>
      simp only [sources_modified, List.any_eq_true, decide_eq_true_eq]
      constructor
      · rintro ⟨t, ht, hle⟩
        exact Or.inr ⟨o, t, rfl, ht, hle⟩
      · rintro (h | ⟨o', t, ho, ht, hle⟩)
        · exact Option.noConfusion h
        · exact ⟨t, ht, by cases ho; exact hle⟩
  · intro hmod
    unfold CompileObject_meditate
    rw [hmod]
    rfl

/-- Witness for C1's amended theorem at a concrete input: object mtime 10,
single source mtime 3, both checks claiming changes. -/
theorem C1_sources_modified_spec_witness :
    sources_modified (some 10) [3] = false ∧
      CompileObject_meditate true (some 10) [3] (.ok true) (.ok true)
        = (.NO_CHANGE, false, []) :=
  ⟨by decide,
    (C1_sources_modified_spec true (some 10) [3] (.ok true) (.ok true)).2 (by decide)⟩

/-- Claim C2: from the UNCHECKED state, `Target.meditate` sets the status to
the maximum of the objects' statuses, the library dependencies' statuses and
the other-status (CHANGED iff some non-object, non-library dependency has an
mtime strictly greater than the target file's), CHANGED when the target file
is missing; and it back-dates the target file (`touch -c`) exactly when the
resulting status is MINOR_CHANGE and the target type is not UNKNOWN. -/
theorem C2_target_rollup (objStatuses : List Status) (deps : List Dep)
    (fileExists : Bool) (t : Nat) (ty : TargetType) :
    (Target_meditate .UNCHECKED objStatuses deps fileExists t ty).1
      = (if fileExists then
          maxStatusOr (objStatuses ++ (lib_dependencies deps).map (·.libStatus)
            ++ [if ∃ d ∈ deps, ¬ isLibType (type_from_path d.ext) = true
                    ∧ d.ext ≠ ['.', 'o'] ∧ t < d.mtime
                then Status.CHANGED else Status.NO_CHANGE])
         else Status.CHANGED) ∧
    ((Target_meditate .UNCHECKED objStatuses deps fileExists t ty).2 = true ↔
      ((Target_meditate .UNCHECKED objStatuses deps fileExists t ty).1
          = Status.MINOR_CHANGE ∧ ty ≠ TargetType.UNKNOWN)) := by
  have hother : other_status t deps
      = (if ∃ d ∈ deps, ¬ isLibType (type_from_path d.ext) = true
            ∧ d.ext ≠ ['.', 'o'] ∧ t < d.mtime
         then Status.CHANGED else Status.NO_CHANGE) := by
    unfold other_status
    by_cases h : ∃ d ∈ deps, ¬ isLibType (type_from_path d.ext) = true
        ∧ d.ext ≠ ['.', 'o'] ∧ t < d.mtime
    · rw [if_pos h]
      obtain ⟨d, hmem, h1, h2, h3⟩ := h
      have hb : (other_dependencies deps).any (fun d => t < d.mtime) = true := by
        refine List.any_eq_true.mpr ⟨d, ?_, by simpa using h3⟩
        refine List.mem_filter.mpr ⟨hmem, ?_⟩
        simp [h1, h2]
      rw [hb]
      rfl
    · have hb : (other_dependencies deps).any (fun d => t < d.mtime) = false := by
        rw [List.any_eq_false]
        intro d hd
        have hd' := List.mem_filter.mp hd
        simp only [decide_eq_true_eq, Bool.and_eq_true, Bool.not_eq_true',
          decide_eq_false_iff_not] at hd' ⊢
        intro hlt
        exact h ⟨d, hd'.1, by simpa using hd'.2.1, hd'.2.2, hlt⟩
      rw [hb, if_neg h]
      rfl
  have key : Target_meditate .UNCHECKED objStatuses deps fileExists t ty
      = (if fileExists then
           statusMax (statusMax (maxStatusOr objStatuses)
             (maxStatusOr ((lib_dependencies deps).map (·.libStatus))))
             (other_status t deps)
         else Status.CHANGED,
         decide ((if fileExists then
           statusMax (statusMax (maxStatusOr objStatuses)
             (maxStatusOr ((lib_dependencies deps).map (·.libStatus))))
             (other_status t deps)
         else Status.CHANGED) = Status.MINOR_CHANGE ∧ ty ≠ TargetType.UNKNOWN)) := rfl
  rw [key]
  constructor
  · cases fileExists with
    | false => rfl
    | true =>
      have hx : 2 ≤ statusVal (if ∃ d ∈ deps,
          ¬ isLibType (type_from_path d.ext) = true ∧ d.ext ≠ ['.', 'o'] ∧ t < d.mtime
          then Status.CHANGED else Status.NO_CHANGE) := by
        split <;> decide
      show statusMax (statusMax (maxStatusOr objStatuses)
          (maxStatusOr ((lib_dependencies deps).map (·.libStatus))))
          (other_status t deps)
        = maxStatusOr (objStatuses ++ (lib_dependencies deps).map (·.libStatus)
            ++ [if ∃ d ∈ deps, ¬ isLibType (type_from_path d.ext) = true
                    ∧ d.ext ≠ ['.', 'o'] ∧ t < d.mtime
                then Status.CHANGED else Status.NO_CHANGE])
      rw [hother, maxStatusOr_flatten _ _ _ hx]
  · simp only [decide_eq_true_eq]

/-- Claim C3: a ParsingException raised by either change check inside
`CompileObject.meditate` (modelled as an `.error` result of
`_has_code_changes` or of `_has_used_content_change`, the latter only
evaluated after the former returned True) leaves the object with status
CHANGED and no back-dating; the exception is consumed inside `meditate`
(the model returns normally), so the per-object processing of a target's
object list continues around a failing object. -/
theorem C3_parsing_error_contained (vopt : Bool) (objMTime : Option Nat)
    (srcs : List Nat) (hu : Except PErr Bool) (e e' : PErr)
    (hmod : sources_modified objMTime srcs = true) :
    (CompileObject_meditate vopt objMTime srcs (.error e) hu).1 = .CHANGED ∧
    (CompileObject_meditate vopt objMTime srcs (.error e) hu).2.1 = false ∧
    (CompileObject_meditate vopt objMTime srcs (.ok true) (.error e')).1 = .CHANGED ∧
    (CompileObject_meditate vopt objMTime srcs (.ok true) (.error e')).2.1 = false ∧
    (∀ pre post o, meditate_objects vopt (pre ++ o :: post)
      = meditate_objects vopt pre
        ++ CompileObject_meditate vopt o.objMTime o.srcMTimes
             o.hasCodeChanges o.hasUsedContentChange
          :: meditate_objects vopt post) := by
  refine ⟨?_, ?_, ?_, ?_, ?_⟩
  · simp [CompileObject_meditate, hmod]
  · simp [CompileObject_meditate, hmod]
  · simp [CompileObject_meditate, hmod]
  · simp [CompileObject_meditate, hmod]
  · intro pre post o
    simp [meditate_objects]

/-- Witness for C3 at a concrete input: missing object file (so sources
count as modified), each check raising. -/
theorem C3_parsing_error_contained_witness :
    (CompileObject_meditate false none [] (.error .parsing) (.ok false)).1 = .CHANGED ∧
    (CompileObject_meditate false none [] (.ok true) (.error .parsing)).2.1 = false := by
  have h := C3_parsing_error_contained false none [] (.ok false) .parsing .parsing (by decide)
  exact ⟨h.1, h.2.2.2.1⟩

/-- Claim C5 is a code bug: `recursive_dependencies` neither computes the
transitive closure nor succeeds for ordinary constructs.  On the dependency
chain a → b → c, `_dep_search` gathers only the direct dependency `b` (each
recursive call receives a construct just added to the visited set and
returns at its `if construct in visited` guard, so depth-2 dependencies
like `c` are never reached), and the subsequent `deps.remove(self)` raises
KeyError because `a` itself was never added to the set (`dependencies` uses
`discard`; `recursive_dependencies` uses `remove`). -/
theorem C5_recursive_dependencies_raises :
    recursive_dependencies chainGraph "a" = .error () ∧
    dep_search chainGraph (chainGraph.constructs.length + 1) "a" [] true = ["b"] :=
  ⟨rfl, rfl⟩

/-- Claim C10: `Chunk.content_hash` feeds only the complete lines yielded by
`line_strings` into `iter_hash`; characters after the last newline are held
in the generator's accumulator and never yielded, so a newline-free tail
does not affect the hash, and a chunk with no newline at all hashes to the
empty fold value 1. -/
theorem C10_content_hash_tail (cs tail : List Char) (htail : '\n' ∉ tail) :
    content_hash (cs ++ tail) = content_hash cs ∧
    ('\n' ∉ cs → content_hash cs = 1) := by
  have go_no_nl : ∀ (t : List Char), '\n' ∉ t → ∀ acc, lineStringsGo acc t = [] := by
    intro t
    induction t with
    | nil => intro _ acc; rfl
    | cons c rest ih =>
      intro h acc
      simp only [List.mem_cons, not_or] at h
      simp only [lineStringsGo]
      rw [if_neg (fun hc => h.1 hc.symm)]
      exact ih h.2 _
  have go_append : ∀ (xs : List Char) (acc : List Char),
      lineStringsGo acc (xs ++ tail) = lineStringsGo acc xs := by
    intro xs
    induction xs with
    | nil =>
      intro acc
      rw [List.nil_append, go_no_nl tail htail]
      rfl
    | cons c rest ih =>
      intro acc
      simp only [List.cons_append, lineStringsGo, List.append_eq]
      by_cases hc : c = '\n'
      · rw [if_pos hc, if_pos hc, ih]
      · rw [if_neg hc, if_neg hc, ih]
  refine ⟨?_, ?_⟩
  · unfold content_hash line_strings
    rw [go_append]
  · intro h
    unfold content_hash line_strings
    rw [go_no_nl cs h]
    rfl

/-- Witness for C10 at a concrete input: chunk "xyz" with trailing
characters "tr" and no newline anywhere. -/
theorem C10_content_hash_tail_witness :
    content_hash (("xyz").data ++ ("tr").data) = content_hash (("xyz").data) ∧
    content_hash (("xyz").data) = 1 := by
  have h := C10_content_hash_tail (("xyz").data) (("tr").data) (by decide)
  exact ⟨h.1, h.2 (by decide)⟩

/-- Helper: appending a final newline yields a list whose last element is
that newline. -/
theorem getLast?_append_nl (l : List Char) : (l ++ ['\n']).getLast? = some '\n' := by
  induction l with
  | nil => rfl
  | cons c rest ih =>
    rw [List.cons_append, List.getLast?_cons]
    simp [ih]

/-- Helper: `str.find` misses a pattern whose first character does not
occur in the string. -/
theorem findSubGo_none_of_head_not_mem (p : Char) (ps : List Char) :
    ∀ (t : List Char) (i : Nat), p ∉ t → findSubGo (p :: ps) t i = none := by
  intro t
  induction t with
  | nil =>
    intro i _
    simp [findSubGo, List.isPrefixOf]
  | cons c cs ih =>
    intro i hmem
    simp only [List.mem_cons, not_or] at hmem
    simp only [findSubGo, List.isPrefixOf, Bool.and_eq_true, beq_iff_eq]
    rw [if_neg (fun hc => hmem.1 hc.1)]
    exact ih (i + 1) hmem.2

/-- Helper: `pyFindSub` version of the previous lemma. -/
theorem pyFindSub_none_of_head_not_mem (p : Char) (ps s : List Char) (i : Nat)
    (h : p ∉ s) : pyFindSub (p :: ps) s i = none :=
  findSubGo_none_of_head_not_mem p ps (s.drop i) i
    (fun hm => h (List.drop_subset i s hm))

/-- Helper: `str.split()` of a whitespace-only string is empty. -/
theorem splitWsGo_all_ws (w : List Char) (hw : ∀ c ∈ w, isPyWs c = true) :
    splitWsGo [] w = [] := by
  induction w with
  | nil => rfl
  | cons c cs ih =>
    simp only [splitWsGo]
    rw [if_pos (hw c (by simp))]
    simp only [List.isEmpty_nil, if_pos rfl]
    exact ih (fun d hd => hw d (by simp [hd]))

/-- Helper: `Line.stripped` of a whitespace-only line ending in a newline
is exactly `"\n"`. -/
theorem line_stripped_all_ws (w : List Char) (hw : ∀ c ∈ w, isPyWs c = true)
    (hnl : w.getLast? = some '\n') : line_stripped w = ['\n'] := by
  unfold line_stripped pySplitWs
  rw [splitWsGo_all_ws w hw, if_pos hnl]
  rfl

/-- Helper: a whitespace-only raw line ending in a newline passes through
`strip_comments` without changing the cross-line `in_block` state, and its
stripped form is `"\n"` (so `stripped_hash` skips it). -/
theorem uncommentLine_ws_spec (w : List Char) (hw : ∀ c ∈ w, isPyWs c = true)
    (hnl : w.getLast? = some '\n') (ib : Bool) :
    (uncommentLine w ib).2 = ib ∧
      line_stripped (uncommentLine w ib).1 = ['\n'] := by
  have hslash : '/' ∉ w := fun hm => absurd (hw '/' hm) (by decide)
  have hstar : '*' ∉ w := fun hm => absurd (hw '*' hm) (by decide)
  cases ib with
  | true =>
    have hgo : uncommentGo w (w.length + 1) true [] 0 = ([], true) := by
      simp only [uncommentGo]
      rw [pyFindSub_none_of_head_not_mem '*' _ w 0 hstar]
      simp
    have hff : pyFindSub ['/', '/'] ([] : List Char) 0 = none := rfl
    have hline : uncommentLine w true = ([] ++ ['\n'], true) := by
      simp only [uncommentLine, hgo, joinSep, hff]
      rw [if_pos ⟨hnl, by simp⟩]
    rw [hline]
    exact ⟨rfl, by decide⟩
  | false =>
    have hgo : uncommentGo w (w.length + 1) false [] 0 = ([w], false) := by
      simp only [uncommentGo]
      rw [pyFindSub_none_of_head_not_mem '/' _ w 0 hslash]
      simp
    have hff : pyFindSub ['/', '/'] w 0 = none :=
      pyFindSub_none_of_head_not_mem '/' _ w 0 hslash
    have hline : uncommentLine w false = (w, false) := by
      simp only [uncommentLine, hgo, joinSep, hff]
      rw [if_neg (fun hc => hc.2 hnl)]
    rw [hline]
    exact ⟨rfl, line_stripped_all_ws w hw hnl⟩

/-- Helper: inserting a whitespace-only line (ending in a newline) anywhere
leaves the `iter_hash` input sequence of `stripped_hash` unchanged, for any
incoming block-comment state. -/
theorem strippedInputs_insert_ws (w : List Char) (hw : ∀ c ∈ w, isPyWs c = true)
    (hnl : w.getLast? = some '\n') (pre post : List (List Char)) :
    ∀ ib, (((stripCommentsGo ib (pre ++ w :: post)).map line_stripped).filter
        (fun s => s ≠ ['\n'])).map pyStrip
      = (((stripCommentsGo ib (pre ++ post)).map line_stripped).filter
        (fun s => s ≠ ['\n'])).map pyStrip := by
  induction pre with
  | nil =>
    intro ib
    have hspec := uncommentLine_ws_spec w hw hnl ib
    simp only [List.nil_append, stripCommentsGo, List.map_cons, List.filter_cons,
      hspec.1, hspec.2]
    rw [if_neg (by simp)]
  | cons r rs ih =>
    intro ib
    have ht := ih ((uncommentLine r ib).2)
    simp only [List.cons_append, stripCommentsGo, List.map_cons, List.filter_cons,
      List.append_eq] at ht ⊢
    split
    · simp only [List.map_cons]
      rw [ht]
    · exact ht

set_option maxRecDepth 100000 in
/-- Claim C4 counterexample: `stripped_hash` is *not* invariant under adding
a comment.  Comments are replaced by a joining space, so inserting `/*x*/`
inside the token `ab` yields the stripped line `"a b"` in place of `"ab"`
and a different hash. -/
theorem C4_comment_addition_changes_hash :
    stripped_hash [("a/*x*/b\n").data] ≠ stripped_hash [("ab\n").data] := by
  decide

set_option maxRecDepth 100000 in
/-- Claim C4 (amended): `stripped_hash` is determined by the sequence of
whitespace-collapsed, comment-stripped forms of the non-whitespace lines:
(1) equal filtered stripped-line sequences give equal hashes, (2) inserting
or removing a whitespace-only line that ends in a newline never changes the
hash, but (3) a comment edit that joins or splits a token — comments are
replaced by a joining space — does change it, as at the exhibited input. -/
theorem C4_stripped_hash_characterised :
    (∀ r1 r2 : List (List Char), strippedHashInputs r1 = strippedHashInputs r2 →
      stripped_hash r1 = stripped_hash r2) ∧
    (∀ (w : List Char) (pre post : List (List Char)),
      (∀ c ∈ w, isPyWs c = true) → w.getLast? = some '\n' →
      stripped_hash (pre ++ w :: post) = stripped_hash (pre ++ post)) ∧
    stripped_hash [("a/*x*/b\n").data] ≠ stripped_hash [("ab\n").data] := by
  refine ⟨?_, ?_, by decide⟩
  · intro r1 r2 h
    exact congrArg iter_hash h
  · intro w pre post hw hnl
    unfold stripped_hash strip_comments
    rw [strippedInputs_insert_ws w hw hnl pre post false]

/-- Witness for C4's amended theorem at concrete inputs: inserting the
whitespace-only line `"  \n"` before `"x\n"` leaves the hash unchanged. -/
theorem C4_stripped_hash_characterised_witness :
    stripped_hash [("  \n").data, ("x\n").data] = stripped_hash [("x\n").data] ∧
    stripped_hash [("x\n").data] = stripped_hash [("x\n").data] :=
  ⟨C4_stripped_hash_characterised.2.1 (("  \n").data) [] [("x\n").data]
      (by decide) (by decide),
    C4_stripped_hash_characterised.1 [("x\n").data] [("x\n").data] rfl⟩

/-- Helper: the newline-restoration step of `strip_comments` guarantees a
trailing newline whenever the raw line had one. -/
theorem fixNl_endsNl (raw u : List Char) (h : raw.getLast? = some '\n') :
    (if raw.getLast? = some '\n' ∧ u.getLast? ≠ some '\n' then u ++ ['\n']
     else u).getLast? = some '\n' := by
  split
  · exact getLast?_append_nl u
  · rename_i hcond
    rw [not_and] at hcond
    have := hcond h
    rw [not_not] at this
    exact this

/-- Helper: `uncommentLine` preserves a trailing newline of the raw line. -/
theorem uncommentLine_endsNl (raw : List Char) (ib : Bool)
    (h : raw.getLast? = some '\n') :
    (uncommentLine raw ib).1.getLast? = some '\n' := by
  unfold uncommentLine
  exact fixNl_endsNl raw _ h

/-- Helper: `Line.stripped` ends in a newline when the uncommented form
does. -/
theorem line_stripped_endsNl (u : List Char) (h : u.getLast? = some '\n') :
    (line_stripped u).getLast? = some '\n' := by
  unfold line_stripped
  rw [if_pos h]
  exact getLast?_append_nl _

/-- Claim C6: `strip_comments` leaves the number of lines unchanged, and
every line whose raw form ends in a newline also ends in a newline in its
uncommented and stripped forms. -/
theorem C6_strip_comments_geometry (raws : List (List Char)) :
    (strip_comments raws).length = raws.length ∧
    ∀ i, i < raws.length → (raws.getD i []).getLast? = some '\n' →
      ((strip_comments raws).getD i []).getLast? = some '\n' ∧
      (line_stripped ((strip_comments raws).getD i [])).getLast? = some '\n' := by
  have main : ∀ (rs : List (List Char)) (ib : Bool),
      (stripCommentsGo ib rs).length = rs.length ∧
      ∀ i, i < rs.length → (rs.getD i []).getLast? = some '\n' →
        ((stripCommentsGo ib rs).getD i []).getLast? = some '\n' ∧
        (line_stripped ((stripCommentsGo ib rs).getD i [])).getLast? = some '\n' := by
    intro rs
    induction rs with
    | nil => intro ib; exact ⟨rfl, fun i hi => absurd hi (by simp)⟩
    | cons r rest ih =>
      intro ib
      refine ⟨?_, ?_⟩
      · simp only [stripCommentsGo, List.length_cons]
        exact congrArg (· + 1) (ih _).1
      · intro i hi hnl
        cases i with
        | zero =>
          simp only [stripCommentsGo, List.getD_cons_zero] at hnl ⊢
          have h1 := uncommentLine_endsNl r ib hnl
          exact ⟨h1, line_stripped_endsNl _ h1⟩
        | succ n =>
          simp only [stripCommentsGo, List.getD_cons_succ,
            List.length_cons] at hnl hi ⊢
          exact (ih _).2 n (by omega) hnl
  exact main raws false

/-- Witness for C6 at a concrete input: a single line with a `//` comment
and trailing newline. -/
theorem C6_strip_comments_geometry_witness :
    (strip_comments [("a //b\n").data]).length = 1 ∧
    ((strip_comments [("a //b\n").data]).getD 0 []).getLast? = some '\n' := by
  have h := C6_strip_comments_geometry [("a //b\n").data]
  exact ⟨h.1, (h.2 0 (by decide) (by decide)).1⟩

/-- Claim C9 is a code bug: `main()` assigns `verbose_opt = user_args.verbose`
only *after* dispatching the meditate/remember task, so during the run the
module-global is still False and no informational line reaches stdout even
with `--verbose`.  At the failing input (meditate with the flag set, on an
object whose sources are modified) the run prints nothing, while the same
meditation with the flag honoured would have printed the
'sources modified' line. -/
theorem C9_verbose_flag_ineffective :
    (main_model true ⟨some 0, [5], .ok false, .ok false⟩).1 = [] ∧
    (main_model true ⟨some 0, [5], .ok false, .ok false⟩).2 = true ∧
    (CompileObject_meditate true (some 0) [5] (.ok false) (.ok false)).2.2 ≠ [] := by
  refine ⟨rfl, rfl, ?_⟩
  intro h
  simp [CompileObject_meditate, sources_modified, verbose_out] at h

theorem sumLen_take_succ (L : List (List Char)) :
    ∀ i, i < L.length →
      sumLen (L.take (i + 1)) = sumLen (L.take i) + (lineAt L i).length := by
  induction L with
  | nil => intro i h; simp at h
  | cons l ls ih =>
    intro i h
    cases i with
    | zero => simp [sumLen, lineAt]
    | succ j =>
      have hj : j < ls.length := by simpa using h
      have := ih j hj
      simp only [List.take_succ_cons, sumLen, List.map_cons, List.sum_cons,
        lineAt, List.getD_cons_succ] at this ⊢
      omega

theorem sumLen_take_mono (L : List (List Char)) :
    ∀ i j, i ≤ j → sumLen (L.take i) ≤ sumLen (L.take j) := by
  induction L with
  | nil => intro i j _; simp
  | cons l ls ih =>
    intro i j hij
    cases i with
    | zero => simp [sumLen]
    | succ i' =>
      cases j with
      | zero => omega
      | succ j' =>
        simp only [List.take_succ_cons, sumLen, List.map_cons, List.sum_cons]
        have := ih i' j' (by omega)
        simp only [sumLen] at this
        omega

theorem toOff_le_total (L : List (List Char)) (p : SrcPos) (hv : PosValid L p) :
    toOff L p ≤ sumLen L := by
  obtain ⟨hl, hc⟩ := hv
  have h1 : toOff L p ≤ sumLen (L.take (p.lineI + 1)) := by
    rw [sumLen_take_succ L p.lineI hl]
    unfold toOff
    rcases hc with h | h
    · omega
    · omega
  have h2 : sumLen (L.take (p.lineI + 1)) ≤ sumLen (L.take L.length) :=
    sumLen_take_mono L _ _ (by omega)
  rw [List.take_length] at h2
  omega

theorem mkPos_spec (L : List (List Char)) (hm : MidNonempty L) (i c : Nat)
    (hi : i < L.length) (hc : c ≤ (lineAt L i).length) :
    PosValid L (mkPos L i c) ∧ toOff L (mkPos L i c) = sumLen (L.take i) + c := by
  unfold mkPos
  split
  · rename_i hcond
    obtain ⟨hce, hlt⟩ := hcond
    refine ⟨⟨?_, ?_⟩, ?_⟩
    · show i + 1 < L.length
      omega
    · show (0 : Nat) < (lineAt L (i + 1)).length ∨
        ((0 : Nat) = (lineAt L (i + 1)).length ∧ i + 1 = L.length - 1)
      by_cases hlen : (lineAt L (i + 1)).length = 0
      · right
        refine ⟨by omega, ?_⟩
        by_cases hmid : i + 1 < L.length - 1
        · exact absurd (List.length_eq_zero.mp hlen) (hm (i + 1) hmid)
        · omega
      · left
        omega
    · show sumLen (L.take (i + 1)) + 0 = _
      rw [sumLen_take_succ L i hi]
      omega
  · rename_i hcond
    rw [not_and] at hcond
    refine ⟨⟨hi, ?_⟩, rfl⟩
    show c < (lineAt L i).length ∨ (c = (lineAt L i).length ∧ i = L.length - 1)
    by_cases hce : c = (lineAt L i).length
    · right
      exact ⟨hce, by have := hcond hce; omega⟩
    · left
      omega

theorem addGo_some (L : List (List Char)) (hm : MidNonempty L) :
    ∀ k i n q, L.length - i = k → 1 ≤ n →
      addGo L (L.drop i) i n = some q →
      PosValid L q ∧ toOff L q = sumLen (L.take i) + n := by
  intro k
  induction k with
  | zero =>
    intro i n q hk _ h
    rw [List.drop_eq_nil_of_le (by omega)] at h
    exact Option.noConfusion h
  | succ k ih =>
    intro i n q hk hn h
    have hi : i < L.length := by omega
    rw [List.drop_eq_getElem_cons hi] at h
    simp only [addGo] at h
    have hget : L[i] = lineAt L i := by
      simp [lineAt, List.getD_eq_getElem?_getD, List.getElem?_eq_getElem hi]
    split at h
    · rename_i hle
      cases h
      have := mkPos_spec L hm i n hi (by rw [hget] at hle; omega)
      exact ⟨this.1, this.2⟩
    · rename_i hgt
      rw [hget] at hgt h
      have := ih (i + 1) (n - (lineAt L i).length) q (by omega) (by omega) h
      refine ⟨this.1, ?_⟩
      rw [this.2, sumLen_take_succ L i hi]
      omega

theorem addGo_defined (L : List (List Char)) :
    ∀ k i n, L.length - i = k → 1 ≤ n → i ≤ L.length →
      sumLen (L.take i) + n ≤ sumLen L →
      ∃ q, addGo L (L.drop i) i n = some q := by
  intro k
  induction k with
  | zero =>
    intro i n hk hn hi hb
    have : i = L.length := by omega
    subst this
    rw [List.take_length] at hb
    omega
  | succ k ih =>
    intro i n hk hn hi hb
    have hilt : i < L.length := by omega
    rw [List.drop_eq_getElem_cons hilt]
    simp only [addGo]
    have hget : L[i] = lineAt L i := by
      simp [lineAt, List.getD_eq_getElem?_getD, List.getElem?_eq_getElem hilt]
    rw [hget]
    split
    · exact ⟨_, rfl⟩
    · rename_i hgt
      refine ih (i + 1) (n - (lineAt L i).length) (by omega) (by omega) (by omega) ?_
      rw [sumLen_take_succ L i hilt]
      omega

theorem subGo_some (L : List (List Char)) (hm : MidNonempty L) :
    ∀ m n q, m ≤ L.length → 1 ≤ n →
      subGo L ((L.take m).reverse) (m - 1) n = some q →
      PosValid L q ∧ toOff L q + n = sumLen (L.take m) := by
  intro m
  induction m with
  | zero =>
    intro n q _ _ h
    simp only [List.take_zero, List.reverse_nil, subGo] at h
    exact Option.noConfusion h
  | succ m ih =>
    intro n q hm1 hn h
    have hmlt : m < L.length := by omega
    have htake : (L.take (m + 1)).reverse = lineAt L m :: (L.take m).reverse := by
      rw [List.take_succ, List.reverse_append]
      have hget : L[m]? = some (lineAt L m) := by
        simp [lineAt, List.getD_eq_getElem?_getD, List.getElem?_eq_getElem hmlt]
      rw [hget]
      rfl
    rw [htake] at h
    simp only [subGo, Nat.add_sub_cancel] at h
    split at h
    · rename_i hle
      cases h
      have := mkPos_spec L hm m ((lineAt L m).length - n) hmlt (by omega)
      refine ⟨this.1, ?_⟩
      rw [this.2, sumLen_take_succ L m hmlt]
      omega
    · rename_i hgt
      have := ih (n - (lineAt L m).length) q (by omega) (by omega) h
      refine ⟨this.1, ?_⟩
      rw [sumLen_take_succ L m hmlt]
      omega

theorem subGo_defined (L : List (List Char)) :
    ∀ m n, m ≤ L.length → 1 ≤ n → n ≤ sumLen (L.take m) →
      ∃ q, subGo L ((L.take m).reverse) (m - 1) n = some q := by
  intro m
  induction m with
  | zero =>
    intro n _ hn hb
    simp [sumLen] at hb
    omega
  | succ m ih =>
    intro n hm1 hn hb
    have hmlt : m < L.length := by omega
    have htake : (L.take (m + 1)).reverse = lineAt L m :: (L.take m).reverse := by
      rw [List.take_succ, List.reverse_append]
      have hget : L[m]? = some (lineAt L m) := by
        simp [lineAt, List.getD_eq_getElem?_getD, List.getElem?_eq_getElem hmlt]
      rw [hget]
      rfl
    rw [htake]
    simp only [subGo, Nat.add_sub_cancel]
    split
    · exact ⟨_, rfl⟩
    · rename_i hgt
      refine ih (n - (lineAt L m).length) (by omega) (by omega) ?_
      rw [sumLen_take_succ L m hmlt] at hb
      omega

theorem addNat_spec (L : List (List Char)) (hm : MidNonempty L) (p : SrcPos)
    (n : Nat) (q : SrcPos) (hv : PosValid L p) (h : addNat L p n = some q) :
    PosValid L q ∧ toOff L q = toOff L p + n := by
  obtain ⟨hl, hc⟩ := hv
  have hcle : p.colI ≤ (lineAt L p.lineI).length := by
    rcases hc with h' | h' <;> omega
  unfold addNat at h
  simp only at h
  split at h
  · rename_i hle
    cases h
    have := mkPos_spec L hm p.lineI (p.colI + n) hl (by omega)
    refine ⟨this.1, ?_⟩
    rw [this.2]
    unfold toOff
    omega
  · rename_i hgt
    have := addGo_some L hm (L.length - (p.lineI + 1)) (p.lineI + 1)
      (n - ((lineAt L p.lineI).length - p.colI)) q rfl (by omega) h
    refine ⟨this.1, ?_⟩
    rw [this.2, sumLen_take_succ L p.lineI hl]
    unfold toOff
    omega

theorem addNat_defined (L : List (List Char)) (p : SrcPos) (n : Nat)
    (hv : PosValid L p) (hb : toOff L p + n ≤ sumLen L) :
    ∃ q, addNat L p n = some q := by
  obtain ⟨hl, hc⟩ := hv
  unfold addNat
  simp only
  split
  · exact ⟨_, rfl⟩
  · rename_i hgt
    refine addGo_defined L (L.length - (p.lineI + 1)) (p.lineI + 1)
      (n - ((lineAt L p.lineI).length - p.colI)) rfl (by omega) (by omega) ?_
    rw [sumLen_take_succ L p.lineI hl]
    unfold toOff at hb
    rcases hc with h' | h' <;> omega

theorem subNat_spec (L : List (List Char)) (hm : MidNonempty L) (p : SrcPos)
    (n : Nat) (q : SrcPos) (hv : PosValid L p) (h : subNat L p n = some q) :
    PosValid L q ∧ toOff L q + n = toOff L p := by
  obtain ⟨hl, hc⟩ := hv
  have hcle : p.colI ≤ (lineAt L p.lineI).length := by
    rcases hc with h' | h' <;> omega
  unfold subNat at h
  split at h
  · rename_i hle
    cases h
    have := mkPos_spec L hm p.lineI (p.colI - n) hl (by omega)
    refine ⟨this.1, ?_⟩
    rw [this.2]
    unfold toOff
    omega
  · rename_i hgt
    have := subGo_some L hm p.lineI (n - p.colI) q (by omega) (by omega) h
    obtain ⟨hq1, hq2⟩ := this
    refine ⟨hq1, ?_⟩
    unfold toOff at hq2 ⊢
    omega

theorem subNat_defined (L : List (List Char)) (p : SrcPos) (n : Nat)
    (hv : PosValid L p) (hb : n ≤ toOff L p) :
    ∃ q, subNat L p n = some q := by
  obtain ⟨hl, hc⟩ := hv
  unfold subNat
  split
  · exact ⟨_, rfl⟩
  · rename_i hgt
    refine subGo_defined L p.lineI (n - p.colI) (by omega) (by omega) ?_
    unfold toOff at hb
    omega

theorem toOff_inj (L : List (List Char)) (p q : SrcPos) (hp : PosValid L p)
    (hq : PosValid L q) (h : toOff L p = toOff L q) : p = q := by
  obtain ⟨hpl, hpc⟩ := hp
  obtain ⟨hql, hqc⟩ := hq
  have key : ∀ a b : SrcPos, a.lineI < b.lineI → a.lineI < L.length →
      b.lineI < L.length →
      (a.colI < (lineAt L a.lineI).length ∨
        (a.colI = (lineAt L a.lineI).length ∧ a.lineI = L.length - 1)) →
      toOff L a ≠ toOff L b := by
    intro a b hab hal hbl hac
    have h1 : sumLen (L.take (a.lineI + 1)) = sumLen (L.take a.lineI)
        + (lineAt L a.lineI).length := sumLen_take_succ L a.lineI hal
    have h2 : sumLen (L.take (a.lineI + 1)) ≤ sumLen (L.take b.lineI) :=
      sumLen_take_mono L _ _ (by omega)
    unfold toOff
    rcases hac with h' | h'
    · omega
    · omega
  by_cases heq : p.lineI = q.lineI
  · have : p.colI = q.colI := by
      unfold toOff at h
      rw [heq] at h
      omega
    cases p; cases q
    simp_all
  · rcases Nat.lt_or_ge p.lineI q.lineI with hlt | hge
    · exact absurd h (key p q hlt hpl hql hpc)
    · exact absurd h.symm (key q p (by omega) hql hpl hqc)

set_option maxHeartbeats 400000 in
/-- Claim C8: for a position `p` inside the content (with every non-final
line non-empty, as the line model guarantees) and any integer `n` for which
`p + n` succeeds, `(p + n) - n = p`; the loops of `__add__`/`__sub__` walk
across line boundaries by character offset; and the constructor normalises
a column equal to the current line's length to column 0 of the next line,
so the end-of-line and start-of-next-line coordinates construct the same
position. -/
theorem C8_sourcepos_arithmetic (L : List (List Char)) (hm : MidNonempty L)
    (p q : SrcPos) (n : Int) (hv : PosValid L p) (hadd : addZ L p n = some q) :
    subZ L q n = some p ∧
    (∀ li, li + 1 < L.length →
      mkPos L li (lineAt L li).length = mkPos L (li + 1) 0) := by
  have hm' : MidNonempty L := hm
  constructor
  · unfold addZ at hadd
    unfold subZ
    split at hadd
    · rename_i hneg
      rw [if_pos hneg]
      have hs := subNat_spec L hm p n.natAbs q hv hadd
      have hb : toOff L q + n.natAbs ≤ sumLen L := by
        have := toOff_le_total L p hv
        omega
      obtain ⟨r, hr⟩ := addNat_defined L q n.natAbs hs.1 hb
      have ha := addNat_spec L hm q n.natAbs r hs.1 hr
      have : r = p := toOff_inj L r p ha.1 hv (by omega)
      rw [hr, this]
    · rename_i hpos
      rw [if_neg hpos]
      have ha := addNat_spec L hm p n.toNat q hv hadd
      obtain ⟨r, hr⟩ := subNat_defined L q n.toNat ha.1 (by omega)
      have hs := subNat_spec L hm q n.toNat r ha.1 hr
      have : r = p := toOff_inj L r p hs.1 hv (by omega)
      rw [hr, this]
  · intro li hlt
    unfold mkPos
    rw [if_pos ⟨rfl, by omega⟩]
    have : ¬ ((0 : Nat) = (lineAt L (li + 1)).length ∧ li + 1 < L.length - 1) := by
      rintro ⟨hz, hmid⟩
      exact hm' (li + 1) hmid (List.length_eq_zero.mp hz.symm)
    rw [if_neg this]

/-- Witness for C8 at a concrete input: content ["ab\n", "cd\n"],
p = (0, 1), n = 4; p + 4 crosses into line 1 and subtracting 4 returns to
p; line 0's end coordinate and line 1's start coordinate normalise to the
same position. -/
theorem C8_sourcepos_arithmetic_witness :
    subZ [("ab\n").data, ("cd\n").data] ⟨1, 2⟩ 4 = some ⟨0, 1⟩ ∧
    mkPos [("ab\n").data, ("cd\n").data] 0
        (lineAt [("ab\n").data, ("cd\n").data] 0).length
      = mkPos [("ab\n").data, ("cd\n").data] 1 0 := by
  have h := C8_sourcepos_arithmetic [("ab\n").data, ("cd\n").data]
    (by unfold MidNonempty lineAt; decide) ⟨0, 1⟩ ⟨1, 2⟩ 4
    (by unfold PosValid lineAt; decide) (by decide)
  exact ⟨h.1, h.2 0 (by decide)⟩

theorem getD_append_at (A : List Char) (c : Char) (D : List Char) (d : Char) :
    (A ++ c :: D).getD A.length d = c := by
  induction A with
  | nil => rfl
  | cons a as ih => simpa using ih

theorem getD_append_mem (P mid S : List Char) (t : Nat) (h1 : P.length ≤ t)
    (h2 : t < P.length + mid.length) : (P ++ mid ++ S).getD t ' ' ∈ mid := by
  induction P generalizing t with
  | nil =>
    simp only [List.nil_append, List.length_nil, Nat.zero_add] at h1 h2 ⊢
    induction mid generalizing t with
    | nil => simp at h2
    | cons m ms ih =>
      cases t with
      | zero => simp
      | succ t' =>
        simp only [List.cons_append, List.getD_cons_succ]
        exact List.mem_cons_of_mem m (ih t' (by omega) (by simp at h2; omega))
  | cons p P' ih =>
    cases t with
    | zero => simp at h1
    | succ t' =>
      simp only [List.cons_append, List.getD_cons_succ]
      simp only [List.length_cons] at h1 h2
      exact ih t' (by omega) (by omega)

theorem mem_of_isSuffixOf {pat s : List Char} (h : pat.isSuffixOf s)
    {c : Char} (hc : c ∈ pat) : c ∈ s :=
  (List.isSuffixOf_iff_suffix.mp h).sublist.subset hc

theorem hasSub_of_isPrefixOf (pat s : List Char) (h : pat.isPrefixOf s = true) :
    hasSub pat s = true := by
  unfold hasSub pyFindSub
  cases s with
  | nil => simp [findSubGo, h]
  | cons c cs => simp [findSubGo, h]

theorem hasSub_false_of_head_not_mem (p : Char) (ps s : List Char)
    (h : p ∉ s) : hasSub (p :: ps) s = false := by
  unfold hasSub
  rw [pyFindSub_none_of_head_not_mem p ps s 0 h]
  rfl

theorem ne_of_pred_tf {p : Char → Bool} {c x : Char} (h : p c = true)
    (hx : p x = false) : c ≠ x := by
  intro he
  rw [he, hx] at h
  exact Bool.noConfusion h

theorem wordChar_not_ws {c : Char} (h : wordChar c = true) : isPyWs c = false := by
  by_contra hc
  rw [Bool.not_eq_false] at hc
  simp only [isPyWs, decide_eq_true_eq] at hc
  rcases hc with h' | h' | h' | h' | h' | h' <;> subst h' <;> exact absurd h (by decide)

theorem isSuffixOf_append_singleton (s : List Char) (x : Char) :
    ([x] : List Char).isSuffixOf (s ++ [x]) = true :=
  List.isSuffixOf_iff_suffix.mpr ⟨s, rfl⟩

theorem isSuffixOf_false_of_not_mem (pat s : List Char) (p : Char)
    (hp : p ∈ pat) (h : p ∉ s) : pat.isSuffixOf s = false := by
  by_contra hc
  rw [Bool.not_eq_false] at hc
  exact h (mem_of_isSuffixOf hc hp)

theorem not_bracket_of_pred {c : Char} (h : wordChar c = true ∨ isPyWs c = true) :
    isOpenBracket c = false ∧ isQuote c = false := by
  constructor
  · by_contra hb
    rw [Bool.not_eq_false] at hb
    simp only [isOpenBracket, decide_eq_true_eq] at hb
    rcases hb with h' | h' | h' | h' <;> subst h' <;>
      rcases h with h | h <;> exact absurd h (by decide)
  · by_contra hb
    rw [Bool.not_eq_false] at hb
    simp only [isQuote, decide_eq_true_eq] at hb
    rcases hb with h' | h' <;> subst h' <;>
      rcases h with h | h <;> exact absurd h (by decide)

theorem createLoop_scan :
    ∀ (seg : List Char), (∀ c ∈ seg, wordChar c = true ∨ isPyWs c = true) →
    ∀ (A B : List Char) (start stop : Nat) (scope : ScopeType) (fuel : Nat)
      (s : List Char), (∀ c ∈ s, wordChar c = true) →
      A.length + seg.length ≤ stop →
      createLoop (A ++ seg ++ B) start stop scope (fuel + seg.length) A.length s
        = createLoop (A ++ seg ++ B) start stop scope fuel (A.length + seg.length)
            (s ++ seg.filter (fun c => ! isPyWs c)) := by
  intro seg
  induction seg with
  | nil => intro _ A B start stop scope fuel s _ _; simp
  | cons c rest ih =>
    intro hseg A B start stop scope fuel s hs hstop
    simp only [List.length_cons] at hstop
    have hgetc : (A ++ (c :: rest) ++ B).getD A.length ' ' = c := by
      rw [List.append_assoc]
      exact getD_append_at A c (rest ++ B) ' '
    have hlt : A.length < stop := by omega
    have hsuf : (([':'] : List Char).isSuffixOf s) = false :=
      isSuffixOf_false_of_not_mem _ s ':' (by simp)
        (fun hm => absurd (hs ':' hm) (by decide))
    have hassoc : A ++ (c :: rest) ++ B = (A ++ [c]) ++ rest ++ B := by simp
    have harith : A.length + (c :: rest).length = (A ++ [c]).length + rest.length := by
      simp only [List.length_cons, List.length_append, List.length_cons,
        List.length_nil]
      omega
    have hfe : fuel + (c :: rest).length = (fuel + rest.length) + 1 := by
      simp only [List.length_cons]
      omega
    rw [hfe]
    simp only [createLoop]
    rw [hgetc]
    rw [if_pos hlt]
    rw [if_neg (fun hcond => by rw [hsuf] at hcond; exact Bool.noConfusion hcond.2.2.2.1)]
    by_cases hwc : isPyWs c = true
    · rw [if_neg (ne_of_pred_tf hwc (by decide) : c ≠ ';')]
      rw [if_neg (fun hcond => (ne_of_pred_tf hwc (by decide) : c ≠ '#') hcond.2)]
      rw [if_pos hwc]
      have hfil : (c :: rest).filter (fun c => !isPyWs c) =
          rest.filter (fun c => !isPyWs c) := by
        simp [List.filter_cons, hwc]
      rw [hfil, hassoc, harith]
      have := ih (fun x hx => hseg x (by simp [hx])) (A ++ [c]) B start stop scope
        fuel s hs (by simp; omega)
      have hlen : (A ++ [c]).length = A.length + 1 := by simp
      rw [hlen] at this
      rw [hlen]
      exact this
    · have hw : wordChar c = true := by
        rcases hseg c (by simp) with h | h
        · exact h
        · exact absurd h hwc
      rw [if_neg (ne_of_pred_tf hw (by decide) : c ≠ ';')]
      rw [if_neg (fun hcond => (ne_of_pred_tf hw (by decide) : c ≠ '#') hcond.2)]
      rw [if_neg (by simp [hwc])]
      rw [if_neg (fun hcond => (ne_of_pred_tf hw (by decide) : c ≠ '<') hcond.1)]
      rw [if_neg (ne_of_pred_tf hw (by decide) : c ≠ '(')]
      rw [if_neg (ne_of_pred_tf hw (by decide) : c ≠ '[')]
      rw [if_neg (ne_of_pred_tf hw (by decide) : c ≠ '{')]
      have hfil : (c :: rest).filter (fun c => !isPyWs c) =
          c :: rest.filter (fun c => !isPyWs c) := by
        simp [List.filter_cons, hwc]
      have hs' : ∀ x ∈ s ++ [c], wordChar x = true := by
        intro x hx
        rcases List.mem_append.mp hx with h | h
        · exact hs x h
        · simp at h
          subst h
          exact hw
      have happ : s ++ (c :: rest.filter (fun c => !isPyWs c))
          = (s ++ [c]) ++ rest.filter (fun c => !isPyWs c) := by simp
      rw [hfil, happ, hassoc, harith]
      have := ih (fun x hx => hseg x (by simp [hx])) (A ++ [c]) B start stop scope
        fuel (s ++ [c]) hs' (by simp; omega)
      have hlen : (A ++ [c]).length = A.length + 1 := by simp
      rw [hlen] at this
      rw [hlen]
      exact this

theorem findPairGo_clean :
    ∀ (seg : List Char), (∀ c ∈ seg, c ≠ '{' ∧ c ≠ '}' ∧ c ≠ '\'' ∧ c ≠ '"') →
    ∀ (A B : List Char) (stop fuel : Nat) (d : Int),
      A.length + seg.length ≤ stop →
      findPairGo (A ++ seg ++ B) stop '{' '}' true (fuel + seg.length) A.length d
        = findPairGo (A ++ seg ++ B) stop '{' '}' true fuel (A.length + seg.length) d := by
  intro seg
  induction seg with
  | nil => intro _ A B stop fuel d _; simp
  | cons c rest ih =>
    intro hseg A B stop fuel d hstop
    simp only [List.length_cons] at hstop
    obtain ⟨hc1, hc2, hc3, hc4⟩ := hseg c (by simp)
    have hgetc : (A ++ (c :: rest) ++ B).getD A.length ' ' = c := by
      rw [List.append_assoc]
      exact getD_append_at A c (rest ++ B) ' '
    have hfe : fuel + (c :: rest).length = (fuel + rest.length) + 1 := by
      simp only [List.length_cons]
      omega
    rw [hfe]
    simp only [findPairGo]
    rw [hgetc]
    rw [if_pos (show A.length < stop by omega)]
    rw [if_neg hc1, if_neg hc2]
    rw [if_neg (fun hcond => hc2 hcond.1)]
    rw [if_neg (show ¬ (c = ';' ∧ ¬ True) from fun hcond => hcond.2 trivial)]
    rw [if_neg (show ¬ isQuote c = true by simp [isQuote, hc3, hc4])]
    have hassoc : A ++ (c :: rest) ++ B = (A ++ [c]) ++ rest ++ B := by simp
    have harith : A.length + (c :: rest).length = (A ++ [c]).length + rest.length := by
      simp only [List.length_cons, List.length_append, List.length_nil]
      omega
    rw [hassoc, harith]
    have := ih (fun x hx => hseg x (by simp [hx])) (A ++ [c]) B stop fuel d
      (by simp; omega)
    have hlen : (A ++ [c]).length = A.length + 1 := by simp
    rw [hlen] at this
    rw [hlen]
    exact this

theorem scopeTokensGo_plain :
    ∀ (seg : List Char), (∀ c ∈ seg, isOpenBracket c = false ∧ isQuote c = false) →
    ∀ (A B : List Char) (stop fuel : Nat) (s : List Char),
      A.length + seg.length ≤ stop →
      scopeTokensGo (A ++ seg ++ B) stop (fuel + seg.length) A.length s
        = scopeTokensGo (A ++ seg ++ B) stop fuel (A.length + seg.length) (s ++ seg) := by
  intro seg
  induction seg with
  | nil => intro _ A B stop fuel s _; simp
  | cons c rest ih =>
    intro hseg A B stop fuel s hstop
    simp only [List.length_cons] at hstop
    obtain ⟨hb, hq⟩ := hseg c (by simp)
    have hgetc : (A ++ (c :: rest) ++ B).getD A.length ' ' = c := by
      rw [List.append_assoc]
      exact getD_append_at A c (rest ++ B) ' '
    have hfe : fuel + (c :: rest).length = (fuel + rest.length) + 1 := by
      simp only [List.length_cons]
      omega
    rw [hfe]
    simp only [scopeTokensGo]
    rw [hgetc]
    rw [if_pos (show A.length < stop by omega)]
    rw [if_neg (by simp [hb]), if_neg (by simp [hq])]
    have hassoc : A ++ (c :: rest) ++ B = (A ++ [c]) ++ rest ++ B := by simp
    have harith : A.length + (c :: rest).length = (A ++ [c]).length + rest.length := by
      simp only [List.length_cons, List.length_append, List.length_nil]
      omega
    have happ : s ++ (c :: rest) = (s ++ [c]) ++ rest := by simp
    rw [show s ++ c :: rest = (s ++ [c]) ++ rest from happ] at *
    rw [hassoc, harith]
    have := ih (fun x hx => hseg x (by simp [hx])) (A ++ [c]) B stop fuel (s ++ [c])
      (by simp; omega)
    have hlen : (A ++ [c]).length = A.length + 1 := by simp
    rw [hlen] at this
    rw [hlen]
    exact this

theorem findInScopeGo_plain :
    ∀ (seg : List Char), (∀ c ∈ seg, isOpenBracket c = false ∧ isQuote c = false) →
    ∀ (A B : List Char) (stop fuel : Nat) (s : List Char), '{' ∉ s →
      A.length + seg.length ≤ stop →
      findInScopeGo (A ++ seg ++ B) stop ['{'] (fuel + seg.length) A.length s
        = findInScopeGo (A ++ seg ++ B) stop ['{'] fuel (A.length + seg.length) (s ++ seg) := by
  intro seg
  induction seg with
  | nil => intro _ A B stop fuel s _ _; simp
  | cons c rest ih =>
    intro hseg A B stop fuel s hns hstop
    simp only [List.length_cons] at hstop
    obtain ⟨hb, hq⟩ := hseg c (by simp)
    have hcne : c ≠ '{' := fun he => by rw [he] at hb; exact Bool.noConfusion hb
    have hgetc : (A ++ (c :: rest) ++ B).getD A.length ' ' = c := by
      rw [List.append_assoc]
      exact getD_append_at A c (rest ++ B) ' '
    have hfe : fuel + (c :: rest).length = (fuel + rest.length) + 1 := by
      simp only [List.length_cons]
      omega
    rw [hfe]
    simp only [findInScopeGo]
    rw [hgetc]
    have hsuf : ((['{'] : List Char).isSuffixOf s) = false :=
      isSuffixOf_false_of_not_mem _ s '{' (by simp) hns
    rw [if_neg (by simp [hsuf])]
    rw [if_pos (show A.length < stop by omega)]
    rw [if_neg (fun hcond => by
      rcases hcond.1 with h | h
      · rw [hb] at h; exact Bool.noConfusion h
      · rw [hq] at h; exact Bool.noConfusion h)]
    rw [if_neg (by simp [hb]), if_neg (by simp [hq])]
    have hassoc : A ++ (c :: rest) ++ B = (A ++ [c]) ++ rest ++ B := by simp
    have harith : A.length + (c :: rest).length = (A ++ [c]).length + rest.length := by
      simp only [List.length_cons, List.length_append, List.length_nil]
      omega
    have happ : s ++ (c :: rest) = (s ++ [c]) ++ rest := by simp
    rw [show s ++ c :: rest = (s ++ [c]) ++ rest from happ]
    rw [hassoc, harith]
    have hns' : '{' ∉ s ++ [c] := by
      intro hm
      rcases List.mem_append.mp hm with h | h
      · exact hns h
      · simp at h
        exact hcne h.symm
    have := ih (fun x hx => hseg x (by simp [hx])) (A ++ [c]) B stop fuel (s ++ [c])
      hns' (by simp; omega)
    have hlen : (A ++ [c]).length = A.length + 1 := by simp
    rw [hlen] at this
    rw [hlen]
    exact this

theorem trailScan_ws :
    ∀ (sp : List Char), (∀ c ∈ sp, isPyWs c = true) →
    ∀ (X Y : List Char) (stop fuel : Nat),
      X.length + sp.length ≤ stop →
      trailScan (X ++ sp ++ Y) stop (fuel + sp.length) X.length
        = trailScan (X ++ sp ++ Y) stop fuel (X.length + sp.length) := by
  intro sp
  induction sp with
  | nil => intro _ X Y stop fuel _; simp
  | cons c rest ih =>
    intro hsp X Y stop fuel hstop
    simp only [List.length_cons] at hstop
    have hw := hsp c (by simp)
    have hgetc : (X ++ (c :: rest) ++ Y).getD X.length ' ' = c := by
      rw [List.append_assoc]
      exact getD_append_at X c (rest ++ Y) ' '
    have hfe : fuel + (c :: rest).length = (fuel + rest.length) + 1 := by
      simp only [List.length_cons]
      omega
    rw [hfe]
    simp only [trailScan]
    rw [hgetc]
    rw [if_pos (show X.length < stop by omega)]
    rw [if_neg (ne_of_pred_tf hw (by decide) : c ≠ ';')]
    rw [if_pos hw]
    have hassoc : X ++ (c :: rest) ++ Y = (X ++ [c]) ++ rest ++ Y := by simp
    have harith : X.length + (c :: rest).length = (X ++ [c]).length + rest.length := by
      simp only [List.length_cons, List.length_append, List.length_nil]
      omega
    rw [hassoc, harith]
    have := ih (fun x hx => hsp x (by simp [hx])) (X ++ [c]) Y stop fuel
      (by simp; omega)
    have hlen : (X ++ [c]).length = X.length + 1 := by simp
    rw [hlen] at this
    rw [hlen]
    exact this

theorem tokGo_word :
    ∀ (w : List Char), (∀ c ∈ w, wordChar c = true) →
    ∀ (cur rest : List Char), tokGo cur (w ++ rest) = tokGo (w.reverse ++ cur) rest := by
  intro w
  induction w with
  | nil => intro _ cur rest; simp
  | cons c w' ih =>
    intro hw cur rest
    show tokGo cur (c :: (w' ++ rest)) = _
    simp only [tokGo]
    rw [if_pos (hw c (by simp))]
    rw [ih (fun x hx => hw x (by simp [hx])) (c :: cur) rest]
    simp

theorem tokGo_break (d : Char) (rest cur : List Char) (hd : wordChar d = false)
    (hcur : cur ≠ []) : tokGo cur (d :: rest) = cur.reverse :: tokGo [] rest := by
  simp only [tokGo]
  rw [if_neg (by simp [hd])]
  rw [if_neg (by simp [hcur])]

theorem tokenizeWords_class_sig (name : List Char)
    (hname : ∀ c ∈ name, wordChar c = true) (hne : name ≠ []) :
    tokenizeWords (("class ").data ++ name ++ [' '])
      = [("class").data, name] := by
  unfold tokenizeWords
  rw [show ("class ").data = ("class").data ++ [' '] from rfl]
  rw [List.append_assoc, List.append_assoc]
  rw [tokGo_word ("class").data (by decide) []]
  rw [show ([' '] ++ (name ++ [' '])) = ' ' :: (name ++ [' ']) from rfl]
  rw [tokGo_break ' ' (name ++ [' ']) _ (by decide) (by decide)]
  rw [tokGo_word name hname []]
  rw [show (name.reverse ++ [] : List Char) = name.reverse from by simp]
  rw [show ([' '] : List Char) = ' ' :: [] from rfl]
  rw [tokGo_break ' ' [] name.reverse (by decide) (by simp [hne])]
  simp [tokGo]

theorem firstNonWsGo_here (content : List Char) (b fuel a : Nat) (ha : a < b)
    (hnw : isPyWs (content.getD a ' ') = false) :
    firstNonWsGo content b (fuel + 1) a = some a := by
  simp only [firstNonWsGo]
  rw [hnw]
  simp [ha]

theorem lastNonWsGo_skip (content : List Char) (f k : Nat) :
    ∀ e, f ≤ k → k ≤ e → isPyWs (content.getD k ' ') = false →
      (∀ t, k < t → t ≤ e → isPyWs (content.getD t ' ') = true) →
      lastNonWsGo content f e = k := by
  intro e
  induction e with
  | zero =>
    intro h1 h2 _ _
    have : k = 0 := by omega
    subst this
    have : f = 0 := by omega
    subst this
    rfl
  | succ e ih =>
    intro h1 h2 hnw hws
    simp only [lastNonWsGo]
    by_cases hf : e + 1 ≤ f
    · rw [if_pos hf]
      omega
    · rw [if_neg hf]
      by_cases hke : k = e + 1
      · subst hke
        rw [hnw]
        simp
      · rw [if_pos (hws (e + 1) (by omega) (by omega))]
        exact ih h1 (by omega) hnw (fun t ht1 ht2 => hws t ht1 (by omega))

theorem create_class_head (name body trail : List Char)
    (hname : ∀ c ∈ name, wordChar c = true) (hne : name ≠ [])
    (hns : hasSub (("namespace").data) ((("class").data) ++ name) = false)
    (hbody : ∀ c ∈ body, c ≠ '{' ∧ c ≠ '}' ∧ c ≠ '\'' ∧ c ≠ '"') :
    Component_create
        ((("class ").data ++ name ++ [' ']) ++ '{' :: (body ++ '}' :: trail)) 0
        ((("class ").data ++ name ++ [' ']) ++ '{' :: (body ++ '}' :: trail)).length
        .GLOBAL
      = match trailScan
            ((("class ").data ++ name ++ [' ']) ++ '{' :: (body ++ '}' :: trail))
            ((("class ").data ++ name ++ [' ']) ++ '{' :: (body ++ '}' :: trail)).length
            (((("class ").data ++ name ++ [' ']) ++ '{' :: (body ++ '}' :: trail)).length + 1
              - ((("class ").data ++ name ++ [' ']).length + 1 + body.length))
            ((("class ").data ++ name ++ [' ']).length + 1 + body.length + 1) with
        | .error e => .error e
        | .ok semi =>
          classDefMk ((("class ").data ++ name ++ [' ']) ++ '{' :: (body ++ '}' :: trail))
            0 (semi + 1) := by
  set A : List Char := ("class ").data ++ name ++ [' '] with hA
  set CT : List Char := A ++ '{' :: (body ++ '}' :: trail) with hCT
  have hLlen : CT.length = A.length + body.length + trail.length + 2 := by
    rw [hCT]
    simp only [List.length_append, List.length_cons]
    omega
  have hseg : ∀ c ∈ A, wordChar c = true ∨ isPyWs c = true := by
    rw [hA]
    intro c hc
    rcases List.mem_append.mp hc with h | h
    · rcases List.mem_append.mp h with h2 | h2
      · have hall : ∀ c ∈ ("class ").data, wordChar c = true ∨ isPyWs c = true := by
          decide
        exact hall c h2
      · exact Or.inl (hname c h2)
    · simp only [List.mem_singleton] at h
      subst h
      exact Or.inr (by decide)
  have hfil : A.filter (fun c => !isPyWs c) = ("class").data ++ name := by
    rw [hA]
    rw [List.filter_append, List.filter_append]
    have h1 : (("class ").data).filter (fun c => !isPyWs c) = ("class").data := by
      decide
    have h2 : name.filter (fun c => !isPyWs c) = name :=
      List.filter_eq_self.mpr
        (fun c hc => by simp [wordChar_not_ws (hname c hc)])
    have h3 : ([' '] : List Char).filter (fun c => !isPyWs c) = [] := by decide
    rw [h1, h2, h3, List.append_nil]
  have hgetbrace : CT.getD A.length ' ' = '{' := by
    rw [hCT]
    exact getD_append_at A '{' (body ++ '}' :: trail) ' '
  have hclass_in : hasSub (("class").data) (("class").data ++ name) = true :=
    hasSub_of_isPrefixOf _ _ (List.isPrefixOf_iff_prefix.mpr ⟨name, rfl⟩)
  -- scope_tokens over the class signature
  have hscope : scope_tokens CT 0 A.length = .ok [("class").data, name] := by
    unfold scope_tokens
    rw [Nat.sub_zero]
    rw [show A.length + 1 = 1 + A.length by omega]
    have hplain := scopeTokensGo_plain A
      (fun c hc => not_bracket_of_pred (hseg c hc)) []
      ('{' :: (body ++ '}' :: trail)) A.length 1 []
      (by simp only [List.length_nil, Nat.zero_add]; omega)
    simp only [List.nil_append, List.length_nil, Nat.zero_add] at hplain
    rw [← hCT] at hplain
    rw [hplain]
    rw [show (1 : Nat) = 0 + 1 from rfl]
    simp only [scopeTokensGo]
    rw [if_neg (lt_irrefl A.length)]
    simp only []
    rw [hA]
    rw [tokenizeWords_class_sig name hname hne]
  -- matching close brace via find_pair
  have hassoc2 : CT = (A ++ '{' :: body) ++ '}' :: trail := by
    rw [hCT]
    simp
  have hl2 : (A ++ '{' :: body : List Char).length = A.length + 1 + body.length := by
    simp only [List.length_append, List.length_cons]
    omega
  have hgetclose : CT.getD (A.length + 1 + body.length) ' ' = '}' := by
    rw [hassoc2, ← hl2]
    exact getD_append_at (A ++ '{' :: body) '}' trail ' '
  have hbne : ('{' : Char) ≠ '}' := by decide
  have hfp : find_pair CT CT.length A.length true = .ok (A.length + 1 + body.length) := by
    simp only [find_pair]
    rw [hgetbrace]
    rw [if_pos (show isOpenBracket '{' = true by decide)]
    rw [show bracketClose '{' = '}' from rfl]
    rw [show CT.length + 1 - A.length = (CT.length - A.length) + 1 by omega]
    simp only [findPairGo]
    rw [hgetbrace]
    rw [if_pos (show A.length < CT.length by omega)]
    rw [if_neg (fun hcond => hbne hcond.1)]
    rw [if_neg (show ¬ (('{' : Char) = ';' ∧ ¬ True) from fun hcond => hcond.2 trivial)]
    rw [if_neg (show ¬ isQuote '{' = true by decide)]
    rw [if_pos (show ('{' : Char) = '{' from rfl)]
    rw [show ((0 : Int) + 1) = 1 by decide]
    rw [show CT.length - A.length = (trail.length + 2) + body.length by omega]
    have hclean := findPairGo_clean body hbody (A ++ ['{']) ('}' :: trail) CT.length
      (trail.length + 2) 1
      (by simp only [List.length_append, List.length_nil, List.length_cons]; omega)
    rw [show (A ++ ['{'] : List Char).length = A.length + 1 by simp] at hclean
    rw [show (A ++ ['{']) ++ body ++ '}' :: trail = CT from by rw [hCT]; simp] at hclean
    rw [hclean]
    rw [show trail.length + 2 = (trail.length + 1) + 1 from rfl]
    simp only [findPairGo]
    rw [hgetclose]
    rw [if_pos (show A.length + 1 + body.length < CT.length by omega)]
    rw [if_neg (show ¬ ('}' : Char) = '{' by decide)]
    rw [if_pos (show ('}' : Char) = '}' from rfl)]
    rw [if_pos (show ('}' : Char) = '}' ∧ ((1 : Int) - 1 = 0) from ⟨rfl, by decide⟩)]
  -- initial scan across "class <name> "
  have hscan := createLoop_scan A hseg [] ('{' :: (body ++ '}' :: trail)) 0 CT.length
    .GLOBAL (CT.length + 1 - A.length) [] (by simp)
    (by simp only [List.length_nil, Nat.zero_add]; omega)
  simp only [List.nil_append, List.length_nil, Nat.zero_add] at hscan
  rw [← hCT] at hscan
  rw [show (CT.length + 1 - A.length) + A.length = CT.length + 1 by omega] at hscan
  rw [hfil] at hscan
  -- assemble
  unfold Component_create
  rw [Nat.sub_zero]
  rw [hscan]
  rw [show CT.length + 1 - A.length = (CT.length - A.length) + 1 by omega]
  simp only [createLoop]
  rw [hgetbrace]
  rw [if_pos (show A.length < CT.length by omega)]
  rw [if_neg (fun hcond => hcond.1 hclass_in)]
  rw [if_neg (show ¬ ('{' : Char) = ';' by decide)]
  rw [if_neg (show
    ¬ ((A.length = 0 ∨ CT.getD (A.length - 1) ' ' = '\n') ∧ ('{' : Char) = '#')
    from fun hcond => absurd hcond.2 (by decide))]
  rw [if_neg (show ¬ isPyWs '{' = true by decide)]
  rw [if_neg (show ¬ (('{' : Char) = '<' ∧ ScopeType.GLOBAL ≠ ScopeType.FUNC)
    from fun hcond => absurd hcond.1 (by decide))]
  rw [if_neg (show ¬ ('{' : Char) = '(' by decide)]
  rw [if_neg (show ¬ ('{' : Char) = '[' by decide)]
  rw [if_pos (show ('{' : Char) = '{' from rfl)]
  simp only [hscope, hfp]
  rw [if_neg (show ¬ hasSub (("namespace").data) ((("class").data) ++ name) = true
    from by rw [hns]; exact Bool.false_ne_true)]
  rw [if_pos hclass_in]

theorem classDefMk_class_eval (name body sp rest : List Char)
    (hname : ∀ c ∈ name, wordChar c = true) (hne : name ≠ []) :
    classDefMk
        ((("class ").data ++ name ++ [' ']) ++ '{' :: (body ++ '}' :: (sp ++ ';' :: rest)))
        0
        ((("class ").data ++ name ++ [' ']).length + 1 + body.length + 1 + sp.length + 1)
      = .ok ⟨.classDef, 0,
          (("class ").data ++ name ++ [' ']).length + 1 + body.length + 1 + sp.length + 1,
          some name⟩ := by
  set A : List Char := ("class ").data ++ name ++ [' '] with hA
  set CT : List Char := A ++ '{' :: (body ++ '}' :: (sp ++ ';' :: rest)) with hCT
  set semi : Nat := A.length + 1 + body.length + 1 + sp.length with hsemi
  have hLlen : CT.length = A.length + body.length + sp.length + rest.length + 3 := by
    rw [hCT]
    simp only [List.length_append, List.length_cons]
    omega
  have hseg : ∀ c ∈ A, wordChar c = true ∨ isPyWs c = true := by
    rw [hA]
    intro c hc
    rcases List.mem_append.mp hc with h | h
    · rcases List.mem_append.mp h with h2 | h2
      · have hall : ∀ c ∈ ("class ").data, wordChar c = true ∨ isPyWs c = true := by
          decide
        exact hall c h2
      · exact Or.inl (hname c h2)
    · simp only [List.mem_singleton] at h
      subst h
      exact Or.inr (by decide)
  have hbrA : '{' ∉ A := by
    intro hm
    rcases hseg '{' hm with h | h <;> exact absurd h (by decide)
  have hgetbrace : CT.getD A.length ' ' = '{' := by
    rw [hCT]
    exact getD_append_at A '{' (body ++ '}' :: (sp ++ ';' :: rest)) ' '
  have hget0 : CT.getD 0 ' ' = 'c' := by
    rw [hCT, hA]
    rfl
  have hXassoc : CT = (A ++ '{' :: (body ++ '}' :: sp)) ++ ';' :: rest := by
    rw [hCT]
    simp
  have hXlen : (A ++ '{' :: (body ++ '}' :: sp) : List Char).length = semi := by
    simp only [List.length_append, List.length_cons]
    omega
  have hgetsemi : CT.getD semi ' ' = ';' := by
    rw [hXassoc, ← hXlen]
    exact getD_append_at (A ++ '{' :: (body ++ '}' :: sp)) ';' rest ' '
  have h1 : stripBounds CT 0 (semi + 1) = .ok (0, semi + 1) := by
    unfold stripBounds
    rw [Nat.sub_zero]
    rw [firstNonWsGo_here CT (semi + 1) semi 0 (by omega) (by rw [hget0]; decide)]
    simp only []
    rw [Nat.add_sub_cancel]
    rw [lastNonWsGo_skip CT 0 semi semi (by omega) (le_refl semi)
      (by rw [hgetsemi]; decide) (fun t ht1 ht2 => absurd ht1 (by omega))]
  have hscope : scope_tokens CT 0 A.length = .ok [("class").data, name] := by
    unfold scope_tokens
    rw [Nat.sub_zero]
    rw [show A.length + 1 = 1 + A.length by omega]
    have hplain := scopeTokensGo_plain A
      (fun c hc => not_bracket_of_pred (hseg c hc)) []
      ('{' :: (body ++ '}' :: (sp ++ ';' :: rest))) A.length 1 []
      (by simp only [List.length_nil, Nat.zero_add]; omega)
    simp only [List.nil_append, List.length_nil, Nat.zero_add] at hplain
    rw [← hCT] at hplain
    rw [hplain]
    rw [show (1 : Nat) = 0 + 1 from rfl]
    simp only [scopeTokensGo]
    rw [if_neg (lt_irrefl A.length)]
    simp only []
    rw [hA]
    rw [tokenizeWords_class_sig name hname hne]
  have h2 : find_in_scope CT 0 (semi + 1) (['{'] : List Char) = .ok A.length := by
    unfold find_in_scope
    rw [Nat.sub_zero]
    rw [show semi + 1 + 1 = (semi + 1 + 1 - A.length) + A.length by omega]
    have hplain := findInScopeGo_plain A
      (fun c hc => not_bracket_of_pred (hseg c hc)) []
      ('{' :: (body ++ '}' :: (sp ++ ';' :: rest))) (semi + 1)
      (semi + 1 + 1 - A.length) [] (by simp)
      (by simp only [List.length_nil, Nat.zero_add]; omega)
    simp only [List.nil_append, List.length_nil, Nat.zero_add] at hplain
    rw [← hCT] at hplain
    rw [hplain]
    rw [show semi + 1 + 1 - A.length = (semi + 1 - A.length) + 1 by omega]
    simp only [findInScopeGo]
    have hsuf : ((['{'] : List Char).isSuffixOf A) = false :=
      isSuffixOf_false_of_not_mem _ A '{' (by simp) hbrA
    rw [hgetbrace]
    rw [if_neg (by simp [hsuf])]
    rw [if_pos (show A.length < semi + 1 by omega)]
    rw [if_pos (show (isOpenBracket '{' = true ∨ isQuote '{' = true) ∧
        ((['{'] : List Char).isSuffixOf (A ++ ['{']) = true)
      from ⟨Or.inl (by decide), isSuffixOf_append_singleton A '{'⟩)]
    simp
  have h3 : stripBounds CT A.length semi
      = .ok (A.length, lastNonWsGo CT A.length (semi - 1) + 1) := by
    unfold stripBounds
    rw [show semi - A.length = (semi - A.length - 1) + 1 by omega]
    rw [firstNonWsGo_here CT semi (semi - A.length - 1) A.length (by omega)
      (by rw [hgetbrace]; decide)]
  have h5 : listIndex (("class").data) [("class").data, name] = some 0 := by
    simp [listIndex]
  have h6 : ([("class").data, name] : List (List Char))[1]? = some name := rfl
  simp only [classDefMk, h1, h2, Nat.add_sub_cancel, h3, hscope, h5, Nat.zero_add, h6]

/-- Claim C7: in GLOBAL scope, on a chunk `class <name> {<body>}<ws>;<rest>`,
`Component.create` emits exactly one CppClassDefinition spanning from the
chunk start through the `';'` and carrying the class name; if the closing
`'}'` is followed (after whitespace) by a non-whitespace character other
than `';'`, or the chunk ends before a `';'` is found, `Component.create`
raises a ParsingException. -/
theorem C7_class_factory (name body sp rest : List Char) (d : Char)
    (hname : ∀ c ∈ name, wordChar c = true) (hne : name ≠ [])
    (hns : hasSub (("namespace").data) ((("class").data) ++ name) = false)
    (hbody : ∀ c ∈ body, c ≠ '{' ∧ c ≠ '}' ∧ c ≠ '\'' ∧ c ≠ '"')
    (hsp : ∀ c ∈ sp, isPyWs c = true)
    (hd : isPyWs d = false) (hdsemi : d ≠ ';') :
    Component_create
        ((("class ").data ++ name ++ [' ']) ++ '{' :: (body ++ '}' :: (sp ++ ';' :: rest)))
        0
        ((("class ").data ++ name ++ [' ']) ++ '{' :: (body ++ '}' :: (sp ++ ';' :: rest))).length
        .GLOBAL
      = .ok ⟨.classDef, 0,
          (("class ").data ++ name ++ [' ']).length + 1 + body.length + 1 + sp.length + 1,
          some name⟩
    ∧ Component_create
        ((("class ").data ++ name ++ [' ']) ++ '{' :: (body ++ '}' :: (sp ++ d :: rest)))
        0
        ((("class ").data ++ name ++ [' ']) ++ '{' :: (body ++ '}' :: (sp ++ d :: rest))).length
        .GLOBAL
      = .error .parse
    ∧ Component_create
        ((("class ").data ++ name ++ [' ']) ++ '{' :: (body ++ '}' :: sp))
        0
        ((("class ").data ++ name ++ [' ']) ++ '{' :: (body ++ '}' :: sp)).length
        .GLOBAL
      = .error .parse := by
  refine ⟨?_, ?_, ?_⟩
  · rw [create_class_head name body (sp ++ ';' :: rest) hname hne hns hbody]
    set A : List Char := ("class ").data ++ name ++ [' '] with hA
    set CS : List Char := A ++ '{' :: (body ++ '}' :: (sp ++ ';' :: rest)) with hCS
    have hLlen : CS.length = A.length + body.length + sp.length + rest.length + 3 := by
      rw [hCS]
      simp only [List.length_append, List.length_cons]
      omega
    have hW : CS = (A ++ '{' :: (body ++ ['}'])) ++ sp ++ ';' :: rest := by
      rw [hCS]
      simp
    have hWlen : (A ++ '{' :: (body ++ ['}']) : List Char).length
        = A.length + 1 + body.length + 1 := by
      simp only [List.length_append, List.length_cons, List.length_nil]
      omega
    have htws := trailScan_ws sp hsp (A ++ '{' :: (body ++ ['}'])) (';' :: rest)
      CS.length (rest.length + 3)
      (by simp only [List.length_append, List.length_cons, List.length_nil]; omega)
    rw [hWlen] at htws
    rw [← hW] at htws
    rw [show CS.length + 1 - (A.length + 1 + body.length)
      = (rest.length + 3) + sp.length by omega]
    rw [htws]
    have hXassoc : CS = (A ++ '{' :: (body ++ '}' :: sp)) ++ ';' :: rest := by
      rw [hCS]
      simp
    have hXlen : (A ++ '{' :: (body ++ '}' :: sp) : List Char).length
        = A.length + 1 + body.length + 1 + sp.length := by
      simp only [List.length_append, List.length_cons]
      omega
    have hgetsemi : CS.getD (A.length + 1 + body.length + 1 + sp.length) ' ' = ';' := by
      rw [hXassoc, ← hXlen]
      exact getD_append_at (A ++ '{' :: (body ++ '}' :: sp)) ';' rest ' '
    rw [show rest.length + 3 = (rest.length + 2) + 1 from rfl]
    simp only [trailScan]
    rw [hgetsemi]
    rw [if_pos (show A.length + 1 + body.length + 1 + sp.length < CS.length by omega)]
    rw [if_pos (show (';' : Char) = ';' from rfl)]
    simp only []
    exact classDefMk_class_eval name body sp rest hname hne
  · rw [create_class_head name body (sp ++ d :: rest) hname hne hns hbody]
    set A : List Char := ("class ").data ++ name ++ [' '] with hA
    set CB : List Char := A ++ '{' :: (body ++ '}' :: (sp ++ d :: rest)) with hCB
    have hLlen : CB.length = A.length + body.length + sp.length + rest.length + 3 := by
      rw [hCB]
      simp only [List.length_append, List.length_cons]
      omega
    have hW : CB = (A ++ '{' :: (body ++ ['}'])) ++ sp ++ d :: rest := by
      rw [hCB]
      simp
    have hWlen : (A ++ '{' :: (body ++ ['}']) : List Char).length
        = A.length + 1 + body.length + 1 := by
      simp only [List.length_append, List.length_cons, List.length_nil]
      omega
    have htws := trailScan_ws sp hsp (A ++ '{' :: (body ++ ['}'])) (d :: rest)
      CB.length (rest.length + 3)
      (by simp only [List.length_append, List.length_cons, List.length_nil]; omega)
    rw [hWlen] at htws
    rw [← hW] at htws
    rw [show CB.length + 1 - (A.length + 1 + body.length)
      = (rest.length + 3) + sp.length by omega]
    rw [htws]
    have hXassoc : CB = (A ++ '{' :: (body ++ '}' :: sp)) ++ d :: rest := by
      rw [hCB]
      simp
    have hXlen : (A ++ '{' :: (body ++ '}' :: sp) : List Char).length
        = A.length + 1 + body.length + 1 + sp.length := by
      simp only [List.length_append, List.length_cons]
      omega
    have hgetd : CB.getD (A.length + 1 + body.length + 1 + sp.length) ' ' = d := by
      rw [hXassoc, ← hXlen]
      exact getD_append_at (A ++ '{' :: (body ++ '}' :: sp)) d rest ' '
    rw [show rest.length + 3 = (rest.length + 2) + 1 from rfl]
    simp only [trailScan]
    rw [hgetd]
    rw [if_pos (show A.length + 1 + body.length + 1 + sp.length < CB.length by omega)]
    rw [if_neg hdsemi]
    rw [if_neg (show ¬ isPyWs d = true from by rw [hd]; exact Bool.false_ne_true)]
  · rw [create_class_head name body sp hname hne hns hbody]
    set A : List Char := ("class ").data ++ name ++ [' '] with hA
    set CE : List Char := A ++ '{' :: (body ++ '}' :: sp) with hCE
    have hLlen : CE.length = A.length + body.length + sp.length + 2 := by
      rw [hCE]
      simp only [List.length_append, List.length_cons]
      omega
    have hW : CE = (A ++ '{' :: (body ++ ['}'])) ++ sp ++ [] := by
      rw [hCE]
      simp
    have hWlen : (A ++ '{' :: (body ++ ['}']) : List Char).length
        = A.length + 1 + body.length + 1 := by
      simp only [List.length_append, List.length_cons, List.length_nil]
      omega
    have htws := trailScan_ws sp hsp (A ++ '{' :: (body ++ ['}'])) []
      CE.length 2
      (by simp only [List.length_append, List.length_cons, List.length_nil]; omega)
    rw [hWlen] at htws
    rw [← hW] at htws
    rw [show CE.length + 1 - (A.length + 1 + body.length) = 2 + sp.length by omega]
    rw [htws]
    rw [show (2 : Nat) = 1 + 1 from rfl]
    simp only [trailScan]
    rw [if_neg (show ¬ (A.length + 1 + body.length + 1 + sp.length < CE.length) by omega)]

/-- Witness for C7 at concrete inputs: `"class Foo { int x; } ;"` succeeds
with a CppClassDefinition named Foo spanning the whole 22 characters, while
replacing the trailing `';'` by `'x'` or dropping it raises a parsing
error. -/
theorem C7_class_factory_witness :
    Component_create (("class Foo { int x; } ;").data) 0
        (("class Foo { int x; } ;").data).length .GLOBAL
      = .ok ⟨.classDef, 0, 22, some (("Foo").data)⟩ ∧
    Component_create (("class Foo { int x; } x").data) 0
        (("class Foo { int x; } x").data).length .GLOBAL
      = .error .parse ∧
    Component_create (("class Foo { int x; } ").data) 0
        (("class Foo { int x; } ").data).length .GLOBAL
      = .error .parse := by
  have h := C7_class_factory (("Foo").data) ((" int x; ").data) [' '] [] 'x'
    (by decide) (by decide) (by decide) (by decide) (by decide) (by decide) (by decide)
  have e1 : (("class ").data ++ ("Foo").data ++ [' ']) ++ '{' ::
      ((" int x; ").data ++ '}' :: ([' '] ++ ';' :: []))
      = ("class Foo { int x; } ;").data := by decide
  have e2 : (("class ").data ++ ("Foo").data ++ [' ']) ++ '{' ::
      ((" int x; ").data ++ '}' :: ([' '] ++ 'x' :: []))
      = ("class Foo { int x; } x").data := by decide
  have e3 : (("class ").data ++ ("Foo").data ++ [' ']) ++ '{' ::
      ((" int x; ").data ++ '}' :: [' '])
      = ("class Foo { int x; } ").data := by decide
  have e4 : (("class ").data ++ ("Foo").data ++ [' ']).length + 1
      + ((" int x; ").data).length + 1 + ([' '] : List Char).length + 1 = 22 := by decide
  rw [e1, e2, e3, e4] at h
  exact h

end Zen
